import Mathlib

/-! Lamport one-time signatures and the Merkle key tree of `lamport-merkle.js`:
a shallow embedding of `src/src/lamport-merkle.js`.

* JavaScript values that reach `hash` are modelled by `Val`.
* The three external collaborators (`jsSHA`, `JSON.stringify`,
  `secureRandom.randomArray`) are the fields of `Env`; every definition takes
  the environment as its first argument, so every theorem holds for every
  hash function, every serialiser and every outcome of the random source.
* Code that can raise returns `Except JsError _`; `MerkleKeyTree.sign`, which
  also mutates the tree, returns the outcome together with the tree after the
  call.
* A JavaScript array read that may be out of range yields `Option`, where
  `none` stands for `undefined`.
* The external functions are total: a failure of the hash library or of the
  random source is outside the model.
-/

namespace LamportMerkle

/-- JavaScript values handed to `hash`: `undefined`, `null`, booleans, numbers
(the bytes of a seed), strings, arrays and plain objects. -/
inductive Val where
  | undefined : Val
  | null : Val
  | bool : Bool → Val
  | number : Nat → Val
  | string : String → Val
  | array : List Val → Val
  | object : List (String × Val) → Val

instance : Inhabited Val := ⟨Val.undefined⟩

/-- A digest is the text returned by `hash`. -/
abbrev Digest := String

/-- What a JavaScript call can raise: `throw new Error(msg)` or the
`TypeError` of reading a property of `undefined`. -/
inductive JsError where
  | error : String → JsError
  | typeError : JsError
deriving DecidableEq, Repr

/-- The external collaborators of the program.
* `getHash text` is `new jsSHA(text, 'TEXT').getHash('SHA-256', 'HEX')`, where
  `text` is a string or (`none`) `undefined`;
* `stringify v` is `JSON.stringify(v)`, a string or `undefined`;
* `randomArray k` is the array returned by the `k`-th call of
  `secureRandom.randomArray(32)`. -/
structure Env where
  getHash : Option String → String
  stringify : Val → Option String
  randomArray : Nat → List Nat

/-- `String.prototype.slice(0, n)`. -/
def slice0 (s : String) (n : Nat) : String := ⟨s.data.take n⟩

/-- The function `hash` (source lines 19-28): a value that is not a string is
serialised with `JSON.stringify`, the text is hashed and the first 32
characters of the rendering are kept. -/
def hash (E : Env) (msg : Val) : Digest :=
  let text : Option String :=
    match msg with
    | Val.string s => some s
    | v => E.stringify v
  slice0 (E.getHash text) 32

/-- The function `random32Bytes` (lines 30-32), at the `k`-th draw. -/
def random32Bytes (E : Env) (k : Nat) : Val :=
  Val.array ((E.randomArray k).map Val.number)

/-- The function `char2Binary` (lines 34-40): the binary rendering of the
character code, padded on the left with `'0'` to at least 8 characters.
Characters are Unicode scalar values; for the codes below `0x10000`, which
include every character of a hexadecimal rendering, they are the UTF-16 code
units of JavaScript. -/
def char2Binary (char : Char) : List Char :=
  let binary := Nat.toDigits 2 char.toNat
  List.replicate (8 - binary.length) '0' ++ binary

/-- The function `eachBit` (lines 42-51): the arguments `(bit, bitIdx)` of
the successive calls of the callback. -/
def eachBit (msg : String) : List (Char × Nat) :=
  msg.data.enum.flatMap fun (charIdx, char) =>
    (char2Binary char).enum.map fun (bitI, bit) => (bit, charIdx * 8 + bitI)

/-- The read `pair[bit]` of a two-element array with a one-character property
name: `'0'` and `'1'` give the elements, anything else gives `undefined`. -/
def pairAt {α : Type} (pair : α × α) (bit : Char) : Option α :=
  if bit = '0' then some pair.1 else if bit = '1' then some pair.2 else none

/-- An `undefined` pushed into an array of values. -/
def orUndefined (v : Option Val) : Val := v.getD Val.undefined

/-- The object returned by `lamport.generate`. -/
structure KeyPair where
  privKey : List (Val × Val)
  pubKey : List (Digest × Digest)
  used : Bool

/-- The loop of `lamport.generate` (lines 60-68) after `n` iterations, the
draws of the random source being numbered from `k`. -/
def generateLoop (E : Env) (k : Nat) :
    Nat → List (Val × Val) × List (Digest × Digest)
  | 0 => ([], [])
  | i + 1 =>
    let (priv, pub) := generateLoop E k i
    let num1 := random32Bytes E (k + 2 * i)
    let num2 := random32Bytes E (k + 2 * i + 1)
    let hash1 := hash E num1
    let hash2 := hash E num2
    (priv ++ [(num1, num2)], pub ++ [(hash1, hash2)])

/-- The function `lamport.generate` (lines 56-75); it consumes the draws
`k .. k + 511` of the random source. -/
def lamport.generate (E : Env) (k : Nat) : KeyPair :=
  let (priv, pub) := generateLoop E k 256
  { privKey := priv, pubKey := pub, used := false }

/-- The function `lamport.sign` (lines 77-86). Reading `privKey[bitIdx]` out
of range gives `undefined`, whose property read raises a `TypeError`. -/
def lamport.sign (E : Env) (privKey : List (Val × Val)) (msg : Val) :
    Except JsError (List Val) :=
  let msgHash := hash E msg
  (eachBit msgHash).foldlM
    (fun signature (p : Char × Nat) =>
      match privKey[p.2]? with
      | none => Except.error JsError.typeError
      | some pair => Except.ok (signature ++ [orUndefined (pairAt pair p.1)]))
    []

/-- The function `lamport.verify` (lines 88-98). `signature[bitIdx]` out of
range is `undefined`; `pubKey[bitIdx]` out of range raises a `TypeError` at
the read of `[bit]`. -/
def lamport.verify (E : Env) (pubKey : List (Digest × Digest)) (msg : Val)
    (signature : List Val) : Except JsError Bool :=
  let msgHash := hash E msg
  (eachBit msgHash).foldlM
    (fun authentic (p : Char × Nat) =>
      let lhs := hash E (orUndefined signature[p.2]?)
      match pubKey[p.2]? with
      | none => Except.error JsError.typeError
      | some pair =>
        if some lhs ≠ pairAt pair p.1 then Except.ok false
        else Except.ok authentic)
    true

/-- The default size `KEYNUM` (line 105). -/
def KEYNUM : Nat := 4

/-- The function `parentIdx` (lines 107-109): `Math.ceil((idx + 1)/2) - 1`. -/
def parentIdx (idx : Nat) : Nat := ⌈((idx : ℚ) + 1) / 2⌉₊ - 1

/-- The object built by `new MerkleKeyTree(keyNum)`. The field `rootHash` is
the result of an array read, hence a digest or `undefined`. -/
structure MerkleKeyTree where
  size : Nat
  _leaves : List KeyPair
  usedKeyCount : Nat
  rows : List (List Digest)
  rowNum : Nat
  rootHash : Option Digest

/-- A signature object returned by `MerkleKeyTree.prototype.sign`. The entries
of `path` are results of array reads, hence digests or `undefined`. -/
structure SigObj where
  keyPairId : Nat
  pubKey : List (Digest × Digest)
  message : Val
  signature : List Val
  path : List (Option Digest)

/-- A public key as the JavaScript value it is: an array of two-element
arrays of strings. -/
def pubKeyVal (pubKey : List (Digest × Digest)) : Val :=
  Val.array (pubKey.map fun p => Val.array [Val.string p.1, Val.string p.2])

/-- The conversion to a string of an operand of `+` whose other operand is a
string: `undefined` becomes the text `undefined`. -/
def jsStr : Option String → String
  | some s => s
  | none => "undefined"

/-- The first loop of the constructor (lines 116-121) after `n` iterations:
the leaves and the first row. Leaf `j` consumes the draws
`k + 512 * j .. k + 512 * j + 511` of the random source. -/
def leafLoop (E : Env) (k : Nat) : Nat → List KeyPair × List Digest
  | 0 => ([], [])
  | leafNum + 1 =>
    let (leaves, firstRow) := leafLoop E k leafNum
    let keypair := lamport.generate E (k + 512 * leafNum)
    (leaves ++ [keypair], firstRow ++ [hash E (pubKeyVal keypair.pubKey)])

/-- The inner loop of the constructor (lines 128-135): entry `j` of the new
row is `hash(prevRow[k] + prevRow[k+1])` for `k = 2 * j`, as long as
`k < prevRow.length`; `prevRow[k+1]` may be out of range. -/
def nextRow (E : Env) (prevRow : List Digest) : List Digest :=
  (List.range ((prevRow.length + 1) / 2)).map fun j =>
    hash E (Val.string (jsStr prevRow[2 * j]? ++ jsStr prevRow[2 * j + 1]?))

/-- The outer loop of the constructor (lines 126-138): the rows from `row`
upwards, `levels` more rows being computed. -/
def buildRows (E : Env) : Nat → List Digest → List (List Digest)
  | 0, row => [row]
  | levels + 1, row => row :: buildRows E levels (nextRow E row)

/-- The constructor `MerkleKeyTree` (lines 111-142), the draws of the random
source being numbered from `k`. `keyNum || KEYNUM` replaces a size of zero by
`KEYNUM`; `Math.ceil(Math.log2(size))` is `Nat.clog 2 size` (the floating
point logarithm is taken to be exact). The body has no `throw` and no read
of a property of `undefined`, so the result is always `Except.ok`. -/
def MerkleKeyTree.new (E : Env) (k : Nat) (keyNum : Nat) :
    Except JsError MerkleKeyTree :=
  let size := if keyNum = 0 then KEYNUM else keyNum
  let (leaves, firstRow) := leafLoop E k size
  let levels := Nat.clog 2 size
  let rows := buildRows E levels firstRow
  Except.ok
    { size := size
      _leaves := leaves
      usedKeyCount := 0
      rows := rows
      rowNum := rows.length
      rootHash := (rows[rows.length - 1]?).bind fun row => row[0]? }

/-- The scan of `sign` (lines 154-160) from index `i`: the first leaf at or
after `i` whose `used` flag is not set, with its index. -/
def firstUnused : List KeyPair → Nat → Option (KeyPair × Nat)
  | [], _ => none
  | leaf :: rest, i => if !leaf.used then some (leaf, i) else firstUnused rest (i + 1)

/-- The read of the neighbour in `sign` (lines 173-177): the left neighbour
of an odd index, the right neighbour of an even one; `undefined` when out of
range. -/
def siblingRead (row : List Digest) (idx : Nat) : Option Digest :=
  if idx % 2 ≠ 0 then row[idx - 1]? else row[idx + 1]?

/-- The loop of `sign` that collects the authentication path (lines 170-180),
with `n` iterations left: `n = rowNum - curRow`. Reading `rows[curRow]` out of
range gives `undefined`, whose indexing raises a `TypeError`. -/
def pathLoop (rows : List (List Digest)) :
    Nat → Nat → Nat → List (Option Digest) → Except JsError (List (Option Digest))
  | 0, _, _, path => Except.ok path
  | n + 1, curRow, idx, path =>
    match rows[curRow]? with
    | none => Except.error JsError.typeError
    | some row =>
      pathLoop rows n (curRow + 1) (parentIdx idx) (path ++ [siblingRead row idx])

/-- The method `MerkleKeyTree.prototype.sign` (lines 144-186): the outcome of
the call and the tree after the call. The tree is updated only by the last
two statements, so a call that raises leaves it as it was. -/
def MerkleKeyTree.sign (E : Env) (t : MerkleKeyTree) (msg : Val) :
    Except JsError SigObj × MerkleKeyTree :=
  if (t.usedKeyCount : Int) = (t.size : Int) - 1 then
    (Except.error
      (JsError.error "This is your last keypair on this tree, USE IT WISELY"), t)
  else
    match firstUnused t._leaves 0 with
    | none => (Except.error JsError.typeError, t)
    | some (randomKeypair, randomKeypairIndex) =>
      match lamport.sign E randomKeypair.privKey msg with
      | Except.error e => (Except.error e, t)
      | Except.ok signature =>
        match pathLoop t.rows t.rowNum 0 randomKeypairIndex [] with
        | Except.error e => (Except.error e, t)
        | Except.ok path =>
          let finalSig : SigObj :=
            { keyPairId := randomKeypairIndex
              pubKey := randomKeypair.pubKey
              message := msg
              signature := signature
              path := path.set (path.length - 1) t.rootHash }
          (Except.ok finalSig,
            { t with
              _leaves := t._leaves.set randomKeypairIndex
                { randomKeypair with used := true }
              usedKeyCount := t.usedKeyCount + 1 })

/-- The loop of `verify` (lines 192-200) from iteration `i`, with `n`
iterations left: the running index and digest after the loop. -/
def verifyLoop (E : Env) (path : List (Option Digest)) :
    Nat → Nat → Nat → Digest → Nat × Digest
  | 0, _, idx, h => (idx, h)
  | n + 1, i, idx, h =>
    let auth := (path[i]?).join
    let h1 := if idx % 2 ≠ 0 then hash E (Val.string (jsStr auth ++ h))
      else hash E (Val.string (h ++ jsStr auth))
    verifyLoop E path n (i + 1) (parentIdx idx) h1

/-- The method `MerkleKeyTree.prototype.verify` (lines 188-207). It does not
change the tree. -/
def MerkleKeyTree.verify (E : Env) (_t : MerkleKeyTree) (sigObj : SigObj) :
    Except JsError Bool :=
  match lamport.verify E sigObj.pubKey sigObj.message sigObj.signature with
  | Except.error e => Except.error e
  | Except.ok true =>
    let idx := sigObj.keyPairId
    let h := hash E (pubKeyVal sigObj.pubKey)
    let (_, h1) := verifyLoop E sigObj.path (sigObj.path.length - 1) 0 idx h
    if (sigObj.path[sigObj.path.length - 1]?).join = some h1 then Except.ok true
    else Except.ok false
  | Except.ok false => Except.ok false

/-! ## Contracts and reachable states -/

/-- The characters of a lower-case hexadecimal rendering. -/
def isHexChar (c : Char) : Bool := "0123456789abcdef".data.contains c

/-- The contract of the hash oracle: every digest returned by `hash` is 32
hexadecimal characters. -/
def HexDigests (E : Env) : Prop :=
  ∀ v : Val, (hash E v).length = 32 ∧ ∀ c ∈ (hash E v).data, isHexChar c = true

/-- The trees that `new MerkleKeyTree(keyNum)` followed by any number of calls
of `sign` (raising or not) can produce. -/
inductive Reachable (E : Env) (k keyNum : Nat) : MerkleKeyTree → Prop where
  | new (t : MerkleKeyTree) (h : MerkleKeyTree.new E k keyNum = Except.ok t) :
      Reachable E k keyNum t
  | sign (t : MerkleKeyTree) (msg : Val) (h : Reachable E k keyNum t) :
      Reachable E k keyNum (MerkleKeyTree.sign E t msg).2

/-- The trees that any number of calls of `sign` (raising or not) produce
from the tree `t`. -/
inductive SignsTo (E : Env) (t : MerkleKeyTree) : MerkleKeyTree → Prop where
  | refl : SignsTo E t t
  | sign (u : MerkleKeyTree) (msg : Val) (h : SignsTo E t u) :
      SignsTo E t (MerkleKeyTree.sign E u msg).2

/-- The number a list of binary digits stands for. -/
def binValue (bits : List Char) : Nat :=
  bits.foldl (fun acc b => 2 * acc + (if b = '1' then 1 else 0)) 0

/-- The selector sequence of a digest: the binary renderings of its
characters, concatenated in order. -/
def digestBits (s : String) : List Char := s.data.flatMap char2Binary

/-- The entry that `lamport.sign` pushes for the selector `bit` at position
`j`. -/
def signEntry (privKey : List (Val × Val)) (j : Nat) (bit : Char) : Val :=
  orUndefined ((privKey[j]?).bind fun pair => pairAt pair bit)

/-- The test that `lamport.verify` makes for the selector `bit` at position
`j`. -/
def verifyCheck (E : Env) (pubKey : List (Digest × Digest)) (signature : List Val)
    (j : Nat) (bit : Char) : Bool :=
  decide (some (hash E (orUndefined signature[j]?)) =
    (pubKey[j]?).bind fun pair => pairAt pair bit)

/-- A private key and a public key are aligned when every entry of the public
key is the pair of the hashes of the corresponding seeds. -/
def KeyAligned (E : Env) (privKey : List (Val × Val)) (pubKey : List (Digest × Digest)) :
    Prop :=
  pubKey = privKey.map fun p => (hash E p.1, hash E p.2)

/-- The size of the tree built from the argument `keyNum`. -/
def treeSize (keyNum : Nat) : Nat := if keyNum = 0 then KEYNUM else keyNum

/-- Leaf `j` of a tree whose first `c` leaves have been consumed. -/
def leafAt (E : Env) (k c j : Nat) : KeyPair :=
  { privKey := (lamport.generate E (k + 512 * j)).privKey
    pubKey := (lamport.generate E (k + 512 * j)).pubKey
    used := decide (j < c) }

/-- The first row of the tree: the hashes of the public keys of the leaves. -/
def firstRowOf (E : Env) (k size : Nat) : List Digest :=
  (List.range size).map fun j => hash E (pubKeyVal (lamport.generate E (k + 512 * j)).pubKey)

/-- The tree `new MerkleKeyTree(keyNum)` after `c` successful calls of `sign`,
in closed form. -/
def treeAfter (E : Env) (k keyNum c : Nat) : MerkleKeyTree :=
  let rows := buildRows E (Nat.clog 2 (treeSize keyNum)) (firstRowOf E k (treeSize keyNum))
  { size := treeSize keyNum
    _leaves := (List.range (treeSize keyNum)).map (leafAt E k c)
    usedKeyCount := c
    rows := rows
    rowNum := rows.length
    rootHash := (rows[rows.length - 1]?).bind fun row => row[0]? }

/-- The authentication path that `sign` collects for leaf `i`, before its
last entry is overwritten. -/
def rawPath (rows : List (List Digest)) (n curRow idx : Nat) : List (Option Digest) :=
  (List.range n).map fun m => siblingRead ((rows[curRow + m]?).getD []) (idx / 2 ^ m)

/-- The signature object that `sign` returns for the message `msg` on a tree
whose first `c` leaves have been consumed, given the Lamport signature. -/
def sigObjAfter (E : Env) (k keyNum c : Nat) (msg : Val) (signature : List Val) : SigObj :=
  let t := treeAfter E k keyNum c
  { keyPairId := c
    pubKey := (lamport.generate E (k + 512 * c)).pubKey
    message := msg
    signature := signature
    path := (rawPath t.rows t.rowNum 0 c).set (t.rowNum - 1) t.rootHash }

/-- The root recomputed from a signature object, in the words of the
specification: start from the hash of the public key and the index
`keyPairId`; for each path entry except the last, combine the running digest
with that entry (entry first when the running index is odd), hash, and move to
the parent index. -/
def recomputeRoot (E : Env) (sigObj : SigObj) : Digest :=
  (sigObj.path.dropLast.foldl
    (fun (st : Nat × Digest) (auth : Option Digest) =>
      (parentIdx st.1,
        if st.1 % 2 ≠ 0 then hash E (Val.string (jsStr auth ++ st.2))
        else hash E (Val.string (st.2 ++ jsStr auth))))
    (sigObj.keyPairId, hash E (pubKeyVal sigObj.pubKey))).2

/-- The texts that the loop of `verify` hands to `hash`, in order. -/
def verifyInputs (E : Env) (path : List (Option Digest)) :
    Nat → Nat → Nat → Digest → List String
  | 0, _, _, _ => []
  | n + 1, i, idx, h =>
    let auth := (path[i]?).join
    let x := if idx % 2 ≠ 0 then jsStr auth ++ h else h ++ jsStr auth
    x :: verifyInputs E path n (i + 1) (parentIdx idx) (hash E (Val.string x))

/-- All the texts hashed by the loop of `verify` on a signature object. -/
def walkInputs (E : Env) (sigObj : SigObj) : List String :=
  verifyInputs E sigObj.path (sigObj.path.length - 1) 0 sigObj.keyPairId
    (hash E (pubKeyVal sigObj.pubKey))

/-- The hash has no collision among the texts of `S`. -/
def NoCollision (E : Env) (S : List String) : Prop :=
  ∀ a ∈ S, ∀ b ∈ S, hash E (Val.string a) = hash E (Val.string b) → a = b

/-- The hash has no collision between a text of `A` and a text of `B`. -/
def CrossInjective (E : Env) (A B : List String) : Prop :=
  ∀ a ∈ A, ∀ b ∈ B, hash E (Val.string a) = hash E (Val.string b) → a = b

/-- The length of the row above a row of length `n`. -/
def halve (n : Nat) : Nat := (n + 1) / 2

/-- Row `m` of the tree, counted from the first row. -/
def rowAt (E : Env) (k size m : Nat) : List Digest :=
  (nextRow E)^[m] (firstRowOf E k size)

/-- A call of `verify` as a step on the tree: the outcome and the tree after
the call. The body of the method (lines 188-207) assigns neither to a field of
`this` nor to its argument. -/
def MerkleKeyTree.verifyStep (E : Env) (t : MerkleKeyTree) (sigObj : SigObj) :
    Except JsError Bool × MerkleKeyTree :=
  (MerkleKeyTree.verify E t sigObj, t)

/-- The rows of a tree as a function of the ordered public keys of its
leaves. -/
def rowsOfKeys (E : Env) (pubKeys : List (List (Digest × Digest))) : List (List Digest) :=
  buildRows E (Nat.clog 2 pubKeys.length) (pubKeys.map fun pk => hash E (pubKeyVal pk))

/-- The root as a function of the rows: the first entry of the last row. -/
def rootOfRows (rows : List (List Digest)) : Option Digest :=
  (rows[rows.length - 1]?).bind fun row => row[0]?

/-- The value of a hexadecimal digit: its position in `0123456789abcdef`. -/
def hexValue (c : Char) : Fin 16 := Fin.ofNat ("0123456789abcdef".data.indexOf c)

/-- The selector sequence that `eachBit` hands to the callback for a
digest: the bits, in order. -/
def selectorBits (d : Digest) : List Char := (eachBit d).map Prod.fst

/-- The digest whose characters are the hexadecimal digits `f 0 .. f 31`. -/
def digestOfDigits (f : Fin 32 → Fin 16) : Digest :=
  ⟨List.ofFn fun i => Nat.digitChar (f i).val⟩

/-! ## A small concrete environment

Used to instantiate the theorems: the rendering of a text repeats one
hexadecimal digit, chosen by the last character of the text; an array of
numbers is serialised by the parity of its first number; the `k`-th draw of the random
source is 32 copies of the byte `k % 256`; an array of arrays of strings (a
public key) is serialised as its first string. -/

/-- The rendering of the toy hash: 64 copies of one hexadecimal digit. -/
def toyGetHash (text : Option String) : String :=
  let last : Char := (text.bind fun s => s.data.getLast?).getD '0'
  ⟨List.replicate 64 (Nat.digitChar (last.toNat % 16))⟩

/-- The serialiser of the toy environment. -/
def toyStringify : Val → Option String
  | Val.array (Val.number n :: _) => some (if n % 2 = 0 then "e" else "o")
  | Val.array (Val.array (Val.string s :: _) :: _) => some s
  | _ => none

/-- The digest of a leaf of a toy tree whose first draw has the parity of
`k`. -/
def toyLeafDigest (k : Nat) : Digest :=
  if k % 2 = 0 then ⟨List.replicate 32 '5'⟩ else ⟨List.replicate 32 '6'⟩

/-- The toy environment. -/
def toyEnv : Env :=
  { getHash := toyGetHash
    stringify := toyStringify
    randomArray := fun k => List.replicate 32 (k % 256) }

/-- The Lamport signature of `msg` under the first key pair of the toy
environment, in closed form. -/
def toySignature (msg : Val) : List Val :=
  (digestBits (hash toyEnv msg)).enum.map fun y =>
    signEntry (lamport.generate toyEnv 0).privKey y.1 y.2

/-- The signature object that the fresh toy tree of size 2 returns for the
message `hello`. -/
def toySigObj : SigObj :=
  sigObjAfter toyEnv 0 (2 ^ 1) 0 (Val.string "hello") (toySignature (Val.string "hello"))

/-- The digest `666...6` of the toy hash. -/
def toySix : Digest := ⟨List.replicate 32 '6'⟩

/-! ## Arithmetic and bit-level lemmas -/

theorem parentIdx_eq (idx : Nat) : parentIdx idx = idx / 2 := by
  unfold parentIdx
  have h : ⌈((idx : ℚ) + 1) / 2⌉₊ = idx / 2 + 1 := by
    rw [Nat.ceil_eq_iff (by omega)]
    have h2 : (idx : ℚ) = ((idx / 2 * 2 + idx % 2 : ℕ) : ℚ) := by
      congr 1; omega
    have h3 : idx % 2 = 0 ∨ idx % 2 = 1 := by omega
    have h4 : ((idx / 2 + 1 - 1 : ℕ) : ℚ) = ((idx / 2 : ℕ) : ℚ) := by
      congr 1
    rw [h4]
    constructor
    · rw [h2]; push_cast
      rcases h3 with h3 | h3 <;> rw [h3] <;> push_cast <;> linarith
    · rw [h2]; push_cast
      rcases h3 with h3 | h3 <;> rw [h3] <;> push_cast <;> linarith
  omega

set_option maxRecDepth 100000 in
theorem char2Binary_ofNat_shape : ∀ n < 256,
    (char2Binary (Char.ofNat n)).length = 8 ∧
      ∀ b ∈ char2Binary (Char.ofNat n), b = '0' ∨ b = '1' := by
  decide

set_option maxRecDepth 100000 in
theorem binValue_char2Binary_ofNat : ∀ n < 256,
    binValue (char2Binary (Char.ofNat n)) = n := by
  decide

theorem char2Binary_length (c : Char) (h : c.toNat < 256) :
    (char2Binary c).length = 8 := by
  have := (char2Binary_ofNat_shape c.toNat h).1
  rwa [Char.ofNat_toNat] at this

theorem char2Binary_bits (c : Char) (h : c.toNat < 256) :
    ∀ b ∈ char2Binary c, b = '0' ∨ b = '1' := by
  have := (char2Binary_ofNat_shape c.toNat h).2
  rwa [Char.ofNat_toNat] at this

theorem char2Binary_inj (c d : Char) (hc : c.toNat < 256) (hd : d.toNat < 256)
    (h : char2Binary c = char2Binary d) : c = d := by
  have h1 := binValue_char2Binary_ofNat c.toNat hc
  have h2 := binValue_char2Binary_ofNat d.toNat hd
  rw [Char.ofNat_toNat] at h1 h2
  rw [h, h2] at h1
  rw [← Char.ofNat_toNat c, ← Char.ofNat_toNat d, h1]

theorem isHexChar_lt (c : Char) (h : isHexChar c = true) : c.toNat < 256 := by
  simp only [isHexChar, List.contains, List.elem_eq_mem, decide_eq_true_eq] at h
  simp only [List.mem_cons, List.mem_singleton] at h
  rcases h with h | h | h | h | h | h | h | h | h | h | h | h | h | h | h | h | h
  all_goals first | (subst h; decide) | simp at h

theorem enumFrom_flatMap_bits (cs : List Char) (h : ∀ c ∈ cs, c.toNat < 256) (i : Nat) :
    ((cs.enumFrom i).flatMap fun (x : Nat × Char) =>
        (char2Binary x.2).enum.map fun (y : Nat × Char) => (y.2, x.1 * 8 + y.1)) =
      ((cs.flatMap char2Binary).enumFrom (i * 8)).map fun y => (y.2, y.1) := by
  induction cs generalizing i with
  | nil => simp
  | cons c cs ih =>
    have hc : (char2Binary c).length = 8 := char2Binary_length c (h c (by simp))
    rw [List.enumFrom_cons, List.flatMap_cons, List.flatMap_cons, ih (fun d hd => h d (by simp [hd])),
      List.enumFrom_append, List.map_append, hc]
    congr 1
    · apply List.ext_getElem?
      intro m
      simp only [List.enum, List.getElem?_map, List.getElem?_enumFrom]
      cases (char2Binary c)[m]? <;> simp [Nat.add_comm]
    · congr 2
      omega

theorem eachBit_eq (s : String) (h : ∀ c ∈ s.data, c.toNat < 256) :
    eachBit s = (digestBits s).enum.map fun y => (y.2, y.1) := by
  have := enumFrom_flatMap_bits s.data h 0
  simpa [eachBit, digestBits, List.enum] using this

theorem flatMap_char2Binary_length (cs : List Char) (h : ∀ c ∈ cs, c.toNat < 256) :
    (cs.flatMap char2Binary).length = 8 * cs.length := by
  induction cs with
  | nil => simp
  | cons c cs ih =>
    rw [List.flatMap_cons, List.length_append, char2Binary_length c (h c (by simp)),
      ih (fun d hd => h d (by simp [hd])), List.length_cons]
    omega

theorem flatMap_char2Binary_bits (cs : List Char) (h : ∀ c ∈ cs, c.toNat < 256) :
    ∀ b ∈ cs.flatMap char2Binary, b = '0' ∨ b = '1' := by
  intro b hb
  rw [List.mem_flatMap] at hb
  obtain ⟨c, hc, hbc⟩ := hb
  exact char2Binary_bits c (h c hc) b hbc

theorem flatMap_char2Binary_inj (cs ds : List Char) (hc : ∀ c ∈ cs, c.toNat < 256)
    (hd : ∀ c ∈ ds, c.toNat < 256) (hlen : cs.length = ds.length)
    (h : cs.flatMap char2Binary = ds.flatMap char2Binary) : cs = ds := by
  induction cs generalizing ds with
  | nil =>
    cases ds with
    | nil => rfl
    | cons d ds => simp at hlen
  | cons c cs ih =>
    cases ds with
    | nil => simp at hlen
    | cons d ds =>
      rw [List.flatMap_cons, List.flatMap_cons] at h
      have h1 := char2Binary_length c (hc c (by simp))
      have h2 := char2Binary_length d (hd d (by simp))
      obtain ⟨h3, h4⟩ := List.append_inj h (by rw [h1, h2])
      have h5 := char2Binary_inj c d (hc c (by simp)) (hd d (by simp)) h3
      have h6 := ih ds (fun x hx => hc x (by simp [hx])) (fun x hx => hd x (by simp [hx]))
        (by simpa using hlen) h4
      rw [h5, h6]

/-! ## The digests of a hexadecimal oracle -/

theorem HexDigests.lt {E : Env} (hE : HexDigests E) (v : Val) :
    ∀ c ∈ (hash E v).data, c.toNat < 256 :=
  fun c hc => isHexChar_lt c ((hE v).2 c hc)

theorem HexDigests.bits_length {E : Env} (hE : HexDigests E) (v : Val) :
    (digestBits (hash E v)).length = 256 := by
  have h := flatMap_char2Binary_length (hash E v).data (hE.lt v)
  have h2 : (hash E v).data.length = 32 := (hE v).1
  rw [digestBits, h, h2]

theorem HexDigests.bits_binary {E : Env} (hE : HexDigests E) (v : Val) :
    ∀ b ∈ digestBits (hash E v), b = '0' ∨ b = '1' :=
  flatMap_char2Binary_bits _ (hE.lt v)

theorem HexDigests.bits_inj {E : Env} (hE : HexDigests E) (v w : Val)
    (h : digestBits (hash E v) = digestBits (hash E w)) : hash E v = hash E w := by
  have h1 := flatMap_char2Binary_inj (hash E v).data (hash E w).data (hE.lt v) (hE.lt w)
    (by
      have a : (hash E v).data.length = 32 := (hE v).1
      have b : (hash E w).data.length = 32 := (hE w).1
      rw [a, b]) h
  exact String.ext h1

/-! ## Lamport signing and verification as maps over the selector bits -/

theorem sign_foldlM (privKey : List (Val × Val)) (l : List (Char × Nat))
    (h : ∀ p ∈ l, p.2 < privKey.length) (acc : List Val) :
    l.foldlM
      (fun signature (p : Char × Nat) =>
        match privKey[p.2]? with
        | none => (Except.error JsError.typeError : Except JsError (List Val))
        | some pair => Except.ok (signature ++ [orUndefined (pairAt pair p.1)]))
      acc = Except.ok (acc ++ l.map fun p => signEntry privKey p.2 p.1) := by
  induction l generalizing acc with
  | nil => simp [pure, Except.pure]
  | cons p l ih =>
    have hp : p.2 < privKey.length := h p (by simp)
    rw [List.foldlM_cons]
    simp only [List.getElem?_eq_getElem hp, bind, Except.bind]
    rw [ih (fun q hq => h q (by simp [hq]))]
    simp [signEntry, List.getElem?_eq_getElem hp]

theorem verify_foldlM (E : Env) (pubKey : List (Digest × Digest)) (signature : List Val)
    (l : List (Char × Nat)) (h : ∀ p ∈ l, p.2 < pubKey.length) (acc : Bool) :
    l.foldlM
      (fun authentic (p : Char × Nat) =>
        let lhs := hash E (orUndefined signature[p.2]?)
        match pubKey[p.2]? with
        | none => (Except.error JsError.typeError : Except JsError Bool)
        | some pair =>
          if some lhs ≠ pairAt pair p.1 then Except.ok false
          else Except.ok authentic)
      acc = Except.ok (acc && l.all fun p => verifyCheck E pubKey signature p.2 p.1) := by
  induction l generalizing acc with
  | nil => simp [pure, Except.pure]
  | cons p l ih =>
    have hp : p.2 < pubKey.length := h p (by simp)
    rw [List.foldlM_cons]
    simp only [List.getElem?_eq_getElem hp, bind, Except.bind]
    by_cases hc : some (hash E (orUndefined signature[p.2]?)) = pairAt pubKey[p.2] p.1
    · simp only [hc, ne_eq, not_true_eq_false, if_false]
      rw [ih (fun q hq => h q (by simp [hq]))]
      simp [verifyCheck, List.getElem?_eq_getElem hp, hc]
    · simp only [hc, ne_eq, not_false_eq_true, if_true]
      rw [ih (fun q hq => h q (by simp [hq]))]
      simp [verifyCheck, List.getElem?_eq_getElem hp, hc]

theorem lamport_sign_eq (E : Env) (hE : HexDigests E) (privKey : List (Val × Val))
    (hlen : 256 ≤ privKey.length) (msg : Val) :
    lamport.sign E privKey msg =
      Except.ok ((digestBits (hash E msg)).enum.map fun y => signEntry privKey y.1 y.2) := by
  unfold lamport.sign
  simp only []
  rw [sign_foldlM, eachBit_eq _ (hE.lt msg)]
  · simp [List.map_map, Function.comp_def]
  · intro p hp
    rw [eachBit_eq _ (hE.lt msg), List.mem_map] at hp
    obtain ⟨y, hy, rfl⟩ := hp
    have := List.fst_lt_of_mem_enum hy
    rw [hE.bits_length] at this
    simp only
    omega

theorem lamport_verify_eq (E : Env) (hE : HexDigests E) (pubKey : List (Digest × Digest))
    (hlen : 256 ≤ pubKey.length) (msg : Val) (signature : List Val) :
    lamport.verify E pubKey msg signature =
      Except.ok ((digestBits (hash E msg)).enum.all fun y =>
        verifyCheck E pubKey signature y.1 y.2) := by
  unfold lamport.verify
  simp only []
  rw [verify_foldlM, eachBit_eq _ (hE.lt msg)]
  · rw [Bool.true_and]
    congr 1
    generalize (digestBits (hash E msg)).enum = l
    induction l with
    | nil => rfl
    | cons y l ih => simp only [List.map_cons, List.all_cons, ih]
  · intro p hp
    rw [eachBit_eq _ (hE.lt msg), List.mem_map] at hp
    obtain ⟨y, hy, rfl⟩ := hp
    have := List.fst_lt_of_mem_enum hy
    rw [hE.bits_length] at this
    simp only
    omega

/-! ## Key generation -/

theorem generateLoop_length (E : Env) (k n : Nat) : (generateLoop E k n).1.length = n := by
  induction n with
  | zero => rfl
  | succ n ih => simp [generateLoop, ih]

theorem generateLoop_aligned (E : Env) (k n : Nat) :
    KeyAligned E (generateLoop E k n).1 (generateLoop E k n).2 := by
  induction n with
  | zero => rfl
  | succ n ih =>
    unfold KeyAligned at ih ⊢
    simp [generateLoop, ih]

theorem generate_eq (E : Env) (k : Nat) :
    lamport.generate E k =
      { privKey := (generateLoop E k 256).1, pubKey := (generateLoop E k 256).2,
        used := false } := by
  unfold lamport.generate
  generalize generateLoop E k 256 = x
  cases x
  rfl

theorem generate_privKey_length (E : Env) (k : Nat) :
    (lamport.generate E k).privKey.length = 256 := by
  rw [generate_eq]
  dsimp only
  rw [generateLoop_length]

theorem generate_aligned (E : Env) (k : Nat) :
    KeyAligned E (lamport.generate E k).privKey (lamport.generate E k).pubKey := by
  rw [generate_eq]
  dsimp only
  apply generateLoop_aligned

theorem generate_used (E : Env) (k : Nat) : (lamport.generate E k).used = false := by
  rw [generate_eq]

theorem KeyAligned.length {E : Env} {privKey : List (Val × Val)}
    {pubKey : List (Digest × Digest)} (h : KeyAligned E privKey pubKey) :
    pubKey.length = privKey.length := by
  rw [h, List.length_map]

theorem generate_pubKey_length (E : Env) (k : Nat) :
    (lamport.generate E k).pubKey.length = 256 := by
  rw [(generate_aligned E k).length, generate_privKey_length]

theorem KeyAligned.select {E : Env} {privKey : List (Val × Val)}
    {pubKey : List (Digest × Digest)} (h : KeyAligned E privKey pubKey) (j : Nat)
    (hj : j < privKey.length) (b : Char) (hb : b = '0' ∨ b = '1') :
    ((pubKey[j]?).bind fun pair => pairAt pair b) = some (hash E (signEntry privKey j b)) := by
  rw [h]
  simp only [List.getElem?_map, List.getElem?_eq_getElem hj, signEntry, Option.map_some',
    Option.some_bind]
  rcases hb with rfl | rfl <;> simp [pairAt, orUndefined]

theorem enum_map_getElem? {β : Type} (l : List Char) (f : Nat × Char → β) (j : Nat) :
    (l.enum.map f)[j]? = (l[j]?).map fun b => f (j, b) := by
  simp only [List.enum, List.getElem?_map, List.getElem?_enumFrom]
  cases l[j]? <;> simp

theorem mem_enum_iff (l : List Char) (y : Nat × Char) : y ∈ l.enum ↔ l[y.1]? = some y.2 := by
  obtain ⟨i, b⟩ := y
  exact List.mk_mem_enum_iff_getElem?

/-- The test of `lamport.verify` at a position of an aligned key compares the
hash of the signature entry with the hash of the seed the signer would
reveal. -/
theorem verifyCheck_aligned {E : Env} {privKey : List (Val × Val)}
    {pubKey : List (Digest × Digest)} (h : KeyAligned E privKey pubKey)
    (signature : List Val) (j : Nat) (hj : j < privKey.length) (b : Char)
    (hb : b = '0' ∨ b = '1') :
    verifyCheck E pubKey signature j b =
      decide (hash E (orUndefined signature[j]?) = hash E (signEntry privKey j b)) := by
  unfold verifyCheck
  rw [h.select j hj b hb]
  simp

/-! ## Lamport round trip and tamper detection over aligned keys -/

theorem lamport_roundtrip_aligned (E : Env) (hE : HexDigests E) {privKey : List (Val × Val)}
    {pubKey : List (Digest × Digest)} (hal : KeyAligned E privKey pubKey)
    (hlen : 256 ≤ privKey.length) (msg : Val) :
    ∃ sig, lamport.sign E privKey msg = Except.ok sig ∧ sig.length = 256 ∧
      lamport.verify E pubKey msg sig = Except.ok true := by
  refine ⟨_, lamport_sign_eq E hE privKey hlen msg, ?_, ?_⟩
  · simp [List.enum_length, hE.bits_length]
  · rw [lamport_verify_eq E hE pubKey (by rw [hal.length]; exact hlen)]
    congr 1
    rw [List.all_eq_true]
    intro y hy
    have hy1 : y.1 < 256 := by
      have := List.fst_lt_of_mem_enum hy
      rwa [hE.bits_length] at this
    have hy2 := (mem_enum_iff _ y).1 hy
    have hb := hE.bits_binary msg y.2 (List.getElem?_mem hy2)
    rw [verifyCheck_aligned hal _ y.1 (by omega) y.2 hb, enum_map_getElem?, hy2]
    simp [orUndefined]

theorem lamport_tamper_signature_aligned (E : Env) (hE : HexDigests E)
    {privKey : List (Val × Val)} {pubKey : List (Digest × Digest)}
    (hal : KeyAligned E privKey pubKey) (hlen : 256 ≤ privKey.length) (msg : Val)
    (sig : List Val) (hs : lamport.sign E privKey msg = Except.ok sig)
    (i : Nat) (hi : i < 256) (w v : Val) (hw : sig[i]? = some w)
    (hv : hash E v ≠ hash E w) :
    lamport.verify E pubKey msg (sig.set i v) = Except.ok false := by
  rw [lamport_sign_eq E hE privKey hlen msg] at hs
  have hs : sig = _ := (Except.ok.inj hs).symm
  rw [lamport_verify_eq E hE pubKey (by rw [hal.length]; exact hlen)]
  congr 1
  rw [List.all_eq_false]
  have hlenB := hE.bits_length msg
  have hiB : i < (digestBits (hash E msg)).length := by omega
  refine ⟨(i, (digestBits (hash E msg))[i]), ?_, ?_⟩
  · rw [mem_enum_iff]
    exact List.getElem?_eq_getElem hiB
  · have hb := hE.bits_binary msg _ (List.getElem_mem hiB)
    rw [verifyCheck_aligned hal _ i (by omega) _ hb]
    have hsl : i < sig.length := by
      rw [hs]; simpa [List.enum_length] using hiB
    rw [List.getElem?_set_self hsl]
    rw [hs, enum_map_getElem?, List.getElem?_eq_getElem hiB] at hw
    simp only [Option.map_some', Option.some.injEq] at hw
    simp only [orUndefined, Option.getD_some, hw, decide_eq_true_eq]
    exact hv

theorem bits_differ_at (E : Env) (hE : HexDigests E) (msg msg1 : Val)
    (h : hash E msg1 ≠ hash E msg) :
    ∃ j, ∃ (hj : j < (digestBits (hash E msg)).length)
      (hj1 : j < (digestBits (hash E msg1)).length),
      (digestBits (hash E msg))[j] ≠ (digestBits (hash E msg1))[j] := by
  by_contra hcon
  push_neg at hcon
  apply h
  apply hE.bits_inj
  apply List.ext_getElem
  · rw [hE.bits_length, hE.bits_length]
  · intro j h1 h2
    exact (hcon j h2 h1).symm

theorem lamport_tamper_message_aligned (E : Env) (hE : HexDigests E)
    {privKey : List (Val × Val)} {pubKey : List (Digest × Digest)}
    (hal : KeyAligned E privKey pubKey) (hlen : 256 ≤ privKey.length)
    (hdiff : ∀ p ∈ pubKey, p.1 ≠ p.2) (msg msg1 : Val)
    (hmsg : hash E msg1 ≠ hash E msg)
    (sig : List Val) (hs : lamport.sign E privKey msg = Except.ok sig) :
    lamport.verify E pubKey msg1 sig = Except.ok false := by
  rw [lamport_sign_eq E hE privKey hlen msg] at hs
  have hs : sig = _ := (Except.ok.inj hs).symm
  rw [lamport_verify_eq E hE pubKey (by rw [hal.length]; exact hlen)]
  congr 1
  rw [List.all_eq_false]
  obtain ⟨j, hj, hj1, hne⟩ := bits_differ_at E hE msg msg1 hmsg
  have hjl : j < privKey.length := by
    have := hE.bits_length msg
    omega
  refine ⟨(j, (digestBits (hash E msg1))[j]), ?_, ?_⟩
  · rw [mem_enum_iff]
    exact List.getElem?_eq_getElem hj1
  · have hb := hE.bits_binary msg _ (List.getElem_mem hj)
    have hb1 := hE.bits_binary msg1 _ (List.getElem_mem hj1)
    rw [verifyCheck_aligned hal _ j hjl _ hb1]
    rw [hs, enum_map_getElem?, List.getElem?_eq_getElem hj]
    have hp : pubKey[j]? = some (hash E privKey[j].1, hash E privKey[j].2) := by
      rw [hal, List.getElem?_map, List.getElem?_eq_getElem hjl]
      rfl
    have hd := hdiff _ (List.getElem?_mem hp)
    simp only [Option.map_some', orUndefined, Option.getD_some, decide_eq_true_eq]
    simp only [signEntry, List.getElem?_eq_getElem hjl, Option.some_bind]
    rcases hb with hb | hb <;> rcases hb1 with hb1 | hb1 <;> rw [hb, hb1] <;>
      first
      | (exfalso; exact hne (hb.trans hb1.symm))
      | (simp only [pairAt, orUndefined]; simpa using hd)
      | (simp only [pairAt, orUndefined]; simpa using hd.symm)

/-! ## The toy environment satisfies the oracle contract -/

theorem digitChar_hex : ∀ m < 16, isHexChar (Nat.digitChar m) = true := by
  decide

theorem toyGetHash_slice (text : Option String) :
    ∃ m < 16, slice0 (toyGetHash text) 32 = ⟨List.replicate 32 (Nat.digitChar m)⟩ := by
  refine ⟨((text.bind fun s => s.data.getLast?).getD '0').toNat % 16,
    Nat.mod_lt _ (by norm_num), ?_⟩
  simp only [toyGetHash, slice0, List.take_replicate]
  rfl

theorem toy_hash_eq (v : Val) :
    ∃ m < 16, hash toyEnv v = ⟨List.replicate 32 (Nat.digitChar m)⟩ :=
  toyGetHash_slice _

theorem toyEnv_hex : HexDigests toyEnv := by
  intro v
  obtain ⟨m, hm, h⟩ := toy_hash_eq v
  rw [h]
  refine ⟨by simp [String.length], ?_⟩
  intro c hc
  simp only [List.mem_replicate] at hc
  rw [hc.2]
  exact digitChar_hex m hm

/-! ## The constructor -/

theorem leafLoop_eq (E : Env) (k n : Nat) :
    leafLoop E k n = ((List.range n).map (leafAt E k 0), firstRowOf E k n) := by
  induction n with
  | zero => rfl
  | succ n ih =>
    simp only [leafLoop, ih, firstRowOf, List.range_succ, List.map_append, List.map_cons,
      List.map_nil, Prod.mk.injEq, List.append_cancel_left_eq, List.cons.injEq, and_true]
    rw [leafAt, generate_eq]
    simp

theorem new_eq (E : Env) (k keyNum : Nat) :
    MerkleKeyTree.new E k keyNum = Except.ok (treeAfter E k keyNum 0) := by
  unfold MerkleKeyTree.new
  simp only [leafLoop_eq]
  rfl

theorem nextRow_length (E : Env) (row : List Digest) :
    (nextRow E row).length = (row.length + 1) / 2 := by
  simp [nextRow]

theorem nextRow_getElem? (E : Env) (row : List Digest) (j : Nat)
    (hj : j < (row.length + 1) / 2) :
    (nextRow E row)[j]? =
      some (hash E (Val.string (jsStr row[2 * j]? ++ jsStr row[2 * j + 1]?))) := by
  simp [nextRow, List.getElem?_map, List.getElem?_range hj]

theorem buildRows_length (E : Env) (n : Nat) (row : List Digest) :
    (buildRows E n row).length = n + 1 := by
  induction n generalizing row with
  | zero => rfl
  | succ n ih => simp [buildRows, ih]

theorem buildRows_getElem? (E : Env) (n : Nat) (row : List Digest) (m : Nat) (hm : m ≤ n) :
    (buildRows E n row)[m]? = some ((nextRow E)^[m] row) := by
  induction n generalizing row m with
  | zero =>
    have : m = 0 := by omega
    subst this
    rfl
  | succ n ih =>
    cases m with
    | zero => simp [buildRows]
    | succ m =>
      simp only [buildRows, List.getElem?_cons_succ, Function.iterate_succ, Function.comp_apply]
      exact ih (nextRow E row) m (by omega)

/-! ## The method `sign` on the closed form of the tree -/

theorem firstUnused_range' (E : Env) (k c n i : Nat) (hi : i ≤ c) (hc : c < i + n) :
    firstUnused ((List.range' i n).map (leafAt E k c)) i = some (leafAt E k c c, c) := by
  induction n generalizing i with
  | zero => omega
  | succ n ih =>
    rw [List.range'_succ, List.map_cons, firstUnused]
    by_cases h : i < c
    · have : (leafAt E k c i).used = true := by simp [leafAt, h]
      rw [this]
      simp only [Bool.not_true, Bool.false_eq_true, if_false]
      exact ih (i + 1) (by omega) (by omega)
    · have hic : i = c := by omega
      subst hic
      have : (leafAt E k i i).used = false := by simp [leafAt]
      rw [this]
      simp

theorem firstUnused_treeAfter (E : Env) (k keyNum c : Nat) (hc : c < treeSize keyNum) :
    firstUnused (treeAfter E k keyNum c)._leaves 0 = some (leafAt E k c c, c) := by
  simp only [treeAfter, List.range_eq_range']
  exact firstUnused_range' E k c _ 0 (by omega) (by omega)

theorem leaves_set (E : Env) (k c n : Nat) :
    ((List.range n).map (leafAt E k c)).set c
        { privKey := (leafAt E k c c).privKey, pubKey := (leafAt E k c c).pubKey,
          used := true } =
      (List.range n).map (leafAt E k (c + 1)) := by
  apply List.ext_getElem?
  intro j
  by_cases hcj : c = j
  · subst hcj
    by_cases hj : c < n
    · rw [List.getElem?_set_self (by simpa using hj)]
      simp only [List.getElem?_map, List.getElem?_range hj, Option.map_some', leafAt,
        Option.some.injEq, KeyPair.mk.injEq, true_and]
      simp
    · rw [List.getElem?_eq_none_iff.2 (by simp; omega),
        List.getElem?_eq_none_iff.2 (by simp; omega)]
  · rw [List.getElem?_set_ne hcj]
    simp only [List.getElem?_map]
    cases hr : (List.range n)[j]? with
    | none => rfl
    | some x =>
      have hx : x = j := by
        have := List.getElem?_eq_some_iff.1 hr
        obtain ⟨h1, h2⟩ := this
        simpa using h2.symm
      subst hx
      simp only [Option.map_some', leafAt, Option.some.injEq, KeyPair.mk.injEq, true_and]
      have : (x < c) = (x < c + 1) := by
        apply propext; constructor <;> intro h <;> omega
      simp only [this]

theorem pathLoop_eq (rows : List (List Digest)) (n curRow idx : Nat)
    (acc : List (Option Digest)) (h : curRow + n ≤ rows.length) :
    pathLoop rows n curRow idx acc = Except.ok (acc ++ rawPath rows n curRow idx) := by
  induction n generalizing curRow idx acc with
  | zero => simp [pathLoop, rawPath]
  | succ n ih =>
    have hc : curRow < rows.length := by omega
    rw [pathLoop, List.getElem?_eq_getElem hc]
    simp only []
    rw [ih (curRow + 1) (parentIdx idx) _ (by omega)]
    congr 1
    rw [List.append_assoc]
    congr 1
    simp only [rawPath, List.range_succ_eq_map, List.map_cons, List.map_map,
      List.singleton_append, Nat.add_zero, pow_zero, Nat.div_one,
      List.getElem?_eq_getElem hc, Option.getD_some, List.cons.injEq, true_and]
    apply List.map_congr_left
    intro m _
    simp only [Function.comp_apply, parentIdx_eq, Nat.div_div_eq_div_mul, pow_succ]
    rw [Nat.mul_comm 2 (2 ^ m), Nat.add_assoc, Nat.add_comm 1 m]

theorem treeSize_pos (keyNum : Nat) : 0 < treeSize keyNum := by
  unfold treeSize KEYNUM
  split <;> omega

theorem sign_treeAfter_last (E : Env) (k keyNum c : Nat) (msg : Val)
    (hc : c + 1 = treeSize keyNum) :
    MerkleKeyTree.sign E (treeAfter E k keyNum c) msg =
      (Except.error (JsError.error "This is your last keypair on this tree, USE IT WISELY"),
        treeAfter E k keyNum c) := by
  have h : ((treeAfter E k keyNum c).usedKeyCount : Int) =
      ((treeAfter E k keyNum c).size : Int) - 1 := by
    simp only [treeAfter]
    omega
  rw [MerkleKeyTree.sign, if_pos h]

theorem sign_treeAfter (E : Env) (k keyNum c : Nat) (msg : Val)
    (hc : c + 1 < treeSize keyNum) :
    MerkleKeyTree.sign E (treeAfter E k keyNum c) msg =
      match lamport.sign E (lamport.generate E (k + 512 * c)).privKey msg with
      | Except.error e => (Except.error e, treeAfter E k keyNum c)
      | Except.ok signature =>
        (Except.ok (sigObjAfter E k keyNum c msg signature), treeAfter E k keyNum (c + 1)) := by
  have h : ¬ ((treeAfter E k keyNum c).usedKeyCount : Int) =
      ((treeAfter E k keyNum c).size : Int) - 1 := by
    simp only [treeAfter]
    omega
  rw [MerkleKeyTree.sign, if_neg h, firstUnused_treeAfter E k keyNum c (by omega)]
  simp only []
  have hp : (leafAt E k c c).privKey = (lamport.generate E (k + 512 * c)).privKey := by
    rw [leafAt]
  rw [hp]
  cases hs : lamport.sign E (lamport.generate E (k + 512 * c)).privKey msg with
  | error e => rfl
  | ok signature =>
    simp only []
    have hrow : (treeAfter E k keyNum c).rowNum = (treeAfter E k keyNum c).rows.length := rfl
    rw [pathLoop_eq _ _ _ _ _ (by rw [hrow]; omega)]
    simp only [List.nil_append]
    rw [Prod.mk.injEq]
    constructor
    · simp only [sigObjAfter, rawPath, List.length_map, List.length_range, leafAt]
    · have := leaves_set E k c (treeSize keyNum)
      rw [hp] at this
      simp only [treeAfter] at this ⊢
      rw [this]

/-! ## Reachable trees -/

theorem sign_treeAfter_cases (E : Env) (k keyNum c : Nat) (msg : Val)
    (hc : c + 1 ≤ treeSize keyNum) :
    (∃ e, MerkleKeyTree.sign E (treeAfter E k keyNum c) msg =
        (Except.error e, treeAfter E k keyNum c)) ∨
      (c + 1 < treeSize keyNum ∧ ∃ signature,
        lamport.sign E (lamport.generate E (k + 512 * c)).privKey msg = Except.ok signature ∧
        MerkleKeyTree.sign E (treeAfter E k keyNum c) msg =
          (Except.ok (sigObjAfter E k keyNum c msg signature),
            treeAfter E k keyNum (c + 1))) := by
  by_cases h : c + 1 = treeSize keyNum
  · exact Or.inl ⟨_, sign_treeAfter_last E k keyNum c msg h⟩
  · have hlt : c + 1 < treeSize keyNum := by omega
    have := sign_treeAfter E k keyNum c msg hlt
    cases hs : lamport.sign E (lamport.generate E (k + 512 * c)).privKey msg with
    | error e =>
      rw [hs] at this
      exact Or.inl ⟨e, this⟩
    | ok signature =>
      rw [hs] at this
      exact Or.inr ⟨hlt, signature, rfl, this⟩

theorem signsTo_treeAfter (E : Env) (k keyNum c : Nat) (hc : c + 1 ≤ treeSize keyNum)
    (u : MerkleKeyTree) (h : SignsTo E (treeAfter E k keyNum c) u) :
    ∃ d, c ≤ d ∧ d + 1 ≤ treeSize keyNum ∧ u = treeAfter E k keyNum d := by
  induction h with
  | refl => exact ⟨c, le_refl c, hc, rfl⟩
  | sign u msg _ ih =>
    obtain ⟨d, hcd, hd, rfl⟩ := ih
    rcases sign_treeAfter_cases E k keyNum d msg hd with ⟨e, he⟩ | ⟨hlt, sg, _, hs⟩
    · exact ⟨d, hcd, hd, by rw [he]⟩
    · exact ⟨d + 1, by omega, by omega, by rw [hs]⟩

theorem reachable_iff_signsTo (E : Env) (k keyNum : Nat) (t : MerkleKeyTree) :
    Reachable E k keyNum t ↔ SignsTo E (treeAfter E k keyNum 0) t := by
  constructor
  · intro h
    induction h with
    | new t h =>
      rw [new_eq] at h
      rw [← Except.ok.inj h]
      exact SignsTo.refl
    | sign t msg _ ih => exact SignsTo.sign t msg ih
  · intro h
    induction h with
    | refl => exact Reachable.new _ (new_eq E k keyNum)
    | sign u msg _ ih => exact Reachable.sign u msg ih

theorem reachable_treeAfter (E : Env) (k keyNum : Nat) (t : MerkleKeyTree)
    (h : Reachable E k keyNum t) :
    ∃ c, c + 1 ≤ treeSize keyNum ∧ t = treeAfter E k keyNum c := by
  obtain ⟨d, _, hd, ht⟩ := signsTo_treeAfter E k keyNum 0 (treeSize_pos keyNum) t
    ((reachable_iff_signsTo E k keyNum t).1 h)
  exact ⟨d, hd, ht⟩

theorem generate_sign_ok (E : Env) (hE : HexDigests E) (k : Nat) (msg : Val) :
    ∃ sig, lamport.sign E (lamport.generate E k).privKey msg = Except.ok sig ∧
      sig.length = 256 ∧
      lamport.verify E (lamport.generate E k).pubKey msg sig = Except.ok true :=
  lamport_roundtrip_aligned E hE (generate_aligned E k)
    (by rw [generate_privKey_length]) msg

/-! ## Key material in closed form, and the toy hash on it -/

theorem generateLoop_fst (E : Env) (k n : Nat) :
    (generateLoop E k n).1 =
      (List.range n).map fun i =>
        (random32Bytes E (k + 2 * i), random32Bytes E (k + 2 * i + 1)) := by
  induction n with
  | zero => rfl
  | succ n ih => simp [generateLoop, ih, List.range_succ]

theorem generate_privKey_getElem? (E : Env) (k i : Nat) (hi : i < 256) :
    (lamport.generate E k).privKey[i]? =
      some (random32Bytes E (k + 2 * i), random32Bytes E (k + 2 * i + 1)) := by
  rw [generate_eq]
  dsimp only
  rw [generateLoop_fst, List.getElem?_map, List.getElem?_range hi]
  rfl

theorem generate_pubKey_mem (E : Env) (k : Nat) (p : Digest × Digest)
    (hp : p ∈ (lamport.generate E k).pubKey) :
    ∃ i, p = (hash E (random32Bytes E (k + 2 * i)), hash E (random32Bytes E (k + 2 * i + 1))) := by
  rw [generate_aligned E k, generate_eq] at hp
  dsimp only at hp
  rw [generateLoop_fst] at hp
  simp only [List.map_map, List.mem_map, List.mem_range, Function.comp_apply] at hp
  obtain ⟨i, _, h⟩ := hp
  exact ⟨i, h.symm⟩

theorem sign_entry_cases (E : Env) (hE : HexDigests E) (k : Nat) (msg : Val)
    (sig : List Val)
    (hs : lamport.sign E (lamport.generate E k).privKey msg = Except.ok sig)
    (i : Nat) (hi : i < 256) :
    sig[i]? = some (random32Bytes E (k + 2 * i)) ∨
      sig[i]? = some (random32Bytes E (k + 2 * i + 1)) := by
  rw [lamport_sign_eq E hE _ (by rw [generate_privKey_length]) msg] at hs
  have hs : sig = _ := (Except.ok.inj hs).symm
  have hlenB := hE.bits_length msg
  have hiB : i < (digestBits (hash E msg)).length := by omega
  have hb := hE.bits_binary msg _ (List.getElem_mem hiB)
  rw [hs, enum_map_getElem?, List.getElem?_eq_getElem hiB]
  simp only [Option.map_some', signEntry, generate_privKey_getElem? E k i hi, Option.some_bind,
    Option.some.injEq]
  rcases hb with hb | hb <;> rw [hb] <;> simp [pairAt, orUndefined]

theorem toy_hash_string (s : String) :
    hash toyEnv (Val.string s) =
      ⟨List.replicate 32 (Nat.digitChar (((s.data.getLast?).getD '0').toNat % 16))⟩ := by
  simp only [hash, toyEnv, toyGetHash, slice0, List.take_replicate, Option.some_bind]
  rfl

theorem toy_hash_seed (j : Nat) :
    hash toyEnv (random32Bytes toyEnv j) =
      if j % 2 = 0 then ⟨List.replicate 32 '5'⟩ else ⟨List.replicate 32 'f'⟩ := by
  have h : toyEnv.stringify (random32Bytes toyEnv j) =
      some (if j % 2 = 0 then "e" else "o") := by
    simp only [random32Bytes, toyEnv, List.replicate, List.map_cons, toyStringify]
    have : j % 256 % 2 = j % 2 := by omega
    rw [this]
  have h0 : hash toyEnv (random32Bytes toyEnv j) =
      slice0 (toyEnv.getHash (toyEnv.stringify (random32Bytes toyEnv j))) 32 := rfl
  rw [h0, h]
  split
  · decide
  · decide

theorem toy_seed_pair_ne (j : Nat) :
    hash toyEnv (random32Bytes toyEnv (2 * j)) ≠
      hash toyEnv (random32Bytes toyEnv (2 * j + 1)) := by
  rw [toy_hash_seed, toy_hash_seed]
  have h1 : (2 * j) % 2 = 0 := by omega
  have h2 : ¬ (2 * j + 1) % 2 = 0 := by omega
  rw [if_pos h1, if_neg h2]
  decide

/-! ## Claims about the Lamport primitive -/

/-- C2: for every key pair returned by `lamport.generate` (for every outcome
of the random source) and every message, `lamport.sign` returns a signature
and `lamport.verify` accepts it under the public key, the hash oracle
returning 32 hexadecimal characters. -/
theorem C2_lamport_sign_verify_roundtrip (E : Env) (hE : HexDigests E) (k : Nat)
    (msg : Val) :
    ∃ sig, lamport.sign E (lamport.generate E k).privKey msg = Except.ok sig ∧
      lamport.verify E (lamport.generate E k).pubKey msg sig = Except.ok true := by
  obtain ⟨sig, h1, _, h2⟩ := generate_sign_ok E hE k msg
  exact ⟨sig, h1, h2⟩

theorem C2_lamport_sign_verify_roundtrip_witness :
    HexDigests toyEnv ∧
      ∃ sig, lamport.sign toyEnv (lamport.generate toyEnv 0).privKey
          (Val.string "MESSAGE TO SIGN") = Except.ok sig ∧
        lamport.verify toyEnv (lamport.generate toyEnv 0).pubKey
          (Val.string "MESSAGE TO SIGN") sig = Except.ok true :=
  ⟨toyEnv_hex,
    C2_lamport_sign_verify_roundtrip toyEnv toyEnv_hex 0 (Val.string "MESSAGE TO SIGN")⟩

/-- C9: for a key pair from `lamport.generate`, a message and its signature
`sig`, replacing entry `i` (any of the 256) by a value whose hash differs from
the hash of the original entry makes `lamport.verify` return false. -/
theorem C9_lamport_signature_tamper_detected (E : Env) (hE : HexDigests E) (k : Nat)
    (msg : Val) (sig : List Val)
    (hs : lamport.sign E (lamport.generate E k).privKey msg = Except.ok sig)
    (i : Nat) (hi : i < 256) (v : Val)
    (hv : hash E v ≠ hash E (sig.getD i Val.undefined)) :
    lamport.verify E (lamport.generate E k).pubKey msg (sig.set i v) = Except.ok false := by
  have hlen : 256 ≤ (lamport.generate E k).privKey.length := by
    rw [generate_privKey_length]
  rcases sign_entry_cases E hE k msg sig hs i hi with h | h
  · refine lamport_tamper_signature_aligned E hE (generate_aligned E k) hlen msg sig hs i hi
      _ v h ?_
    rwa [List.getD_eq_getElem?_getD, h] at hv
  · refine lamport_tamper_signature_aligned E hE (generate_aligned E k) hlen msg sig hs i hi
      _ v h ?_
    rwa [List.getD_eq_getElem?_getD, h] at hv

theorem toySignature_eq (msg : Val) :
    lamport.sign toyEnv (lamport.generate toyEnv 0).privKey msg =
      Except.ok (toySignature msg) :=
  lamport_sign_eq toyEnv toyEnv_hex _ (by rw [generate_privKey_length]) msg

theorem toySignature_entry_hash (msg : Val) (i : Nat) (hi : i < 256) :
    hash toyEnv ((toySignature msg).getD i Val.undefined) = ⟨List.replicate 32 '5'⟩ ∨
      hash toyEnv ((toySignature msg).getD i Val.undefined) = ⟨List.replicate 32 'f'⟩ := by
  rcases sign_entry_cases toyEnv toyEnv_hex 0 msg _ (toySignature_eq msg) i hi with h | h
  · rw [List.getD_eq_getElem?_getD, h, Option.getD_some, toy_hash_seed]
    split
    · exact Or.inl rfl
    · exact Or.inr rfl
  · rw [List.getD_eq_getElem?_getD, h, Option.getD_some, toy_hash_seed]
    split
    · exact Or.inl rfl
    · exact Or.inr rfl

theorem C9_lamport_signature_tamper_detected_witness :
    HexDigests toyEnv ∧
      lamport.sign toyEnv (lamport.generate toyEnv 0).privKey (Val.string "hello") =
        Except.ok (toySignature (Val.string "hello")) ∧
      0 < 256 ∧
      hash toyEnv (Val.string "x") ≠
        hash toyEnv ((toySignature (Val.string "hello")).getD 0 Val.undefined) ∧
      lamport.verify toyEnv (lamport.generate toyEnv 0).pubKey (Val.string "hello")
        ((toySignature (Val.string "hello")).set 0 (Val.string "x")) = Except.ok false :=
  have hv : hash toyEnv (Val.string "x") ≠
      hash toyEnv ((toySignature (Val.string "hello")).getD 0 Val.undefined) := by
    rcases toySignature_entry_hash (Val.string "hello") 0 (by decide) with h | h <;>
      rw [h, toy_hash_string] <;> decide
  ⟨toyEnv_hex, toySignature_eq _, by decide, hv,
    C9_lamport_signature_tamper_detected toyEnv toyEnv_hex 0 (Val.string "hello")
      (toySignature (Val.string "hello")) (toySignature_eq _) 0 (by decide)
      (Val.string "x") hv⟩

/-! ## Claims about the life cycle of the leaves -/

theorem sign_treeAfter_ok (E : Env) (hE : HexDigests E) (k keyNum c : Nat) (msg : Val)
    (hc : c + 1 < treeSize keyNum) :
    ∃ signature,
      lamport.sign E (lamport.generate E (k + 512 * c)).privKey msg = Except.ok signature ∧
      signature.length = 256 ∧
      lamport.verify E (lamport.generate E (k + 512 * c)).pubKey msg signature =
        Except.ok true ∧
      MerkleKeyTree.sign E (treeAfter E k keyNum c) msg =
        (Except.ok (sigObjAfter E k keyNum c msg signature), treeAfter E k keyNum (c + 1)) := by
  obtain ⟨sig, h1, h2, h3⟩ := generate_sign_ok E hE (k + 512 * c) msg
  refine ⟨sig, h1, h2, h3, ?_⟩
  have := sign_treeAfter E k keyNum c msg hc
  rw [h1] at this
  exact this

theorem sign_treeAfter_inv (E : Env) (k keyNum c : Nat) (msg : Val) (s : SigObj)
    (hc : c + 1 ≤ treeSize keyNum)
    (hs : (MerkleKeyTree.sign E (treeAfter E k keyNum c) msg).1 = Except.ok s) :
    c + 1 < treeSize keyNum ∧ ∃ signature,
      lamport.sign E (lamport.generate E (k + 512 * c)).privKey msg = Except.ok signature ∧
      s = sigObjAfter E k keyNum c msg signature ∧
      (MerkleKeyTree.sign E (treeAfter E k keyNum c) msg).2 = treeAfter E k keyNum (c + 1) := by
  rcases sign_treeAfter_cases E k keyNum c msg hc with ⟨e, he⟩ | ⟨hlt, sg, h1, h2⟩
  · rw [he] at hs
    cases hs
  · rw [h2] at hs ⊢
    exact ⟨hlt, sg, h1, (Except.ok.inj hs).symm, rfl⟩

theorem reachable_of_le (E : Env) (hE : HexDigests E) (k keyNum c : Nat)
    (hc : c + 1 ≤ treeSize keyNum) : Reachable E k keyNum (treeAfter E k keyNum c) := by
  induction c with
  | zero => exact Reachable.new _ (new_eq E k keyNum)
  | succ c ih =>
    obtain ⟨sig, _, _, _, h⟩ :=
      sign_treeAfter_ok E hE k keyNum c (Val.string "") (by omega)
    have := Reachable.sign _ (Val.string "") (ih (by omega))
    rwa [h] at this

theorem treeAfter_leaf (E : Env) (k keyNum c j : Nat) (kp : KeyPair)
    (h : (treeAfter E k keyNum c)._leaves[j]? = some kp) :
    j < treeSize keyNum ∧ kp = leafAt E k c j := by
  simp only [treeAfter, List.getElem?_map] at h
  cases hr : (List.range (treeSize keyNum))[j]? with
  | none => rw [hr] at h; cases h
  | some x =>
    obtain ⟨h1, h2⟩ := List.getElem?_eq_some_iff.1 hr
    have hx : x = j := by simpa using h2.symm
    subst hx
    rw [hr] at h
    exact ⟨by simpa using h1, (Option.some.inj h).symm⟩

theorem treeAfter_leaf_get (E : Env) (k keyNum c j : Nat) (hj : j < treeSize keyNum) :
    (treeAfter E k keyNum c)._leaves[j]? = some (leafAt E k c j) := by
  simp only [treeAfter, List.getElem?_map, List.getElem?_range hj, Option.map_some']

/-- C4: in every state of a tree reached from construction by calls of
`sign`, `sign` raises if and only if `usedKeyCount` equals `size - 1`, and a
call that raises leaves the tree (so `usedKeyCount` and every `used` flag) as
it was; on a fresh tree of size 4 the first three calls succeed and the
fourth raises. The hash oracle returns 32 hexadecimal characters. -/
theorem C4_exhaustion_guard (E : Env) (hE : HexDigests E) (k keyNum : Nat)
    (t : MerkleKeyTree) (ht : Reachable E k keyNum t) (msg : Val) :
    ((∃ e, (MerkleKeyTree.sign E t msg).1 = Except.error e) ↔
        (t.usedKeyCount : Int) = (t.size : Int) - 1) ∧
      (∀ e, (MerkleKeyTree.sign E t msg).1 = Except.error e →
        (MerkleKeyTree.sign E t msg).2 = t) ∧
      (∀ t0 m1 m2 m3 m4, MerkleKeyTree.new E k 4 = Except.ok t0 →
        ∃ s1 s2 s3 e,
          (MerkleKeyTree.sign E t0 m1).1 = Except.ok s1 ∧
          (MerkleKeyTree.sign E (MerkleKeyTree.sign E t0 m1).2 m2).1 = Except.ok s2 ∧
          (MerkleKeyTree.sign E
            (MerkleKeyTree.sign E (MerkleKeyTree.sign E t0 m1).2 m2).2 m3).1 = Except.ok s3 ∧
          (MerkleKeyTree.sign E
            (MerkleKeyTree.sign E
              (MerkleKeyTree.sign E (MerkleKeyTree.sign E t0 m1).2 m2).2 m3).2 m4).1 =
            Except.error e) := by
  obtain ⟨c, hc, rfl⟩ := reachable_treeAfter E k keyNum t ht
  refine ⟨?_, ?_, ?_⟩
  · by_cases h : c + 1 = treeSize keyNum
    · rw [sign_treeAfter_last E k keyNum c msg h]
      simp only [treeAfter]
      constructor
      · intro _; omega
      · intro _; exact ⟨_, rfl⟩
    · obtain ⟨sig, _, _, _, hs⟩ := sign_treeAfter_ok E hE k keyNum c msg (by omega)
      rw [hs]
      simp only [treeAfter]
      constructor
      · rintro ⟨e, he⟩; cases he
      · intro h'; omega
  · intro e he
    rcases sign_treeAfter_cases E k keyNum c msg hc with ⟨e', he'⟩ | ⟨_, sg, _, h2⟩
    · rw [he']
    · rw [h2] at he
      cases he
  · intro t0 m1 m2 m3 m4 h0
    rw [new_eq] at h0
    have h0 := (Except.ok.inj h0).symm
    subst h0
    have h4 : treeSize 4 = 4 := rfl
    obtain ⟨g1, _, _, _, e1⟩ := sign_treeAfter_ok E hE k 4 0 m1 (by omega)
    obtain ⟨g2, _, _, _, e2⟩ := sign_treeAfter_ok E hE k 4 1 m2 (by omega)
    obtain ⟨g3, _, _, _, e3⟩ := sign_treeAfter_ok E hE k 4 2 m3 (by omega)
    have e4 := sign_treeAfter_last E k 4 3 m4 (by omega)
    rw [e1, e2, e3, e4]
    exact ⟨_, _, _, _, rfl, rfl, rfl, rfl⟩

theorem C4_exhaustion_guard_witness :
    HexDigests toyEnv ∧ Reachable toyEnv 0 4 (treeAfter toyEnv 0 4 3) ∧
      (((∃ e, (MerkleKeyTree.sign toyEnv (treeAfter toyEnv 0 4 3)
            (Val.string "d")).1 = Except.error e) ↔
          ((treeAfter toyEnv 0 4 3).usedKeyCount : Int) =
            ((treeAfter toyEnv 0 4 3).size : Int) - 1) ∧
        (∀ e, (MerkleKeyTree.sign toyEnv (treeAfter toyEnv 0 4 3)
            (Val.string "d")).1 = Except.error e →
          (MerkleKeyTree.sign toyEnv (treeAfter toyEnv 0 4 3) (Val.string "d")).2 =
            treeAfter toyEnv 0 4 3)) :=
  have hr : Reachable toyEnv 0 4 (treeAfter toyEnv 0 4 3) :=
    reachable_of_le toyEnv toyEnv_hex 0 4 3 (by decide)
  ⟨toyEnv_hex, hr,
    (C4_exhaustion_guard toyEnv toyEnv_hex 0 4 _ hr (Val.string "d")).1,
    (C4_exhaustion_guard toyEnv toyEnv_hex 0 4 _ hr (Val.string "d")).2.1⟩

/-- C5: in every state of a tree reached from construction by calls of
`sign`, the leaves whose `used` flag is set are exactly those of index below
`usedKeyCount`; a successful `sign` returns as `keyPairId` the value of
`usedKeyCount` before the call, which is the lowest index of an unused leaf,
and no later successful `sign` on the same tree returns that `keyPairId`
again. -/
theorem C5_one_time_use_of_leaves (E : Env) (k keyNum : Nat) (t : MerkleKeyTree)
    (ht : Reachable E k keyNum t) :
    (∀ j kp, t._leaves[j]? = some kp → (kp.used = true ↔ j < t.usedKeyCount)) ∧
      ∀ msg s, (MerkleKeyTree.sign E t msg).1 = Except.ok s →
        s.keyPairId = t.usedKeyCount ∧
        (∃ kp, t._leaves[s.keyPairId]? = some kp ∧ kp.used = false) ∧
        (∀ j kp, j < s.keyPairId → t._leaves[j]? = some kp → kp.used = true) ∧
        ∀ u msg1 s1, SignsTo E (MerkleKeyTree.sign E t msg).2 u →
          (MerkleKeyTree.sign E u msg1).1 = Except.ok s1 → s1.keyPairId ≠ s.keyPairId := by
  obtain ⟨c, hc, rfl⟩ := reachable_treeAfter E k keyNum t ht
  have hused : ∀ j kp, (treeAfter E k keyNum c)._leaves[j]? = some kp →
      (kp.used = true ↔ j < (treeAfter E k keyNum c).usedKeyCount) := by
    intro j kp h
    obtain ⟨_, rfl⟩ := treeAfter_leaf E k keyNum c j kp h
    simp [leafAt, treeAfter]
  refine ⟨hused, ?_⟩
  intro msg s hs
  obtain ⟨hlt, sg, _, rfl, h2⟩ := sign_treeAfter_inv E k keyNum c msg s hc hs
  have hid : (sigObjAfter E k keyNum c msg sg).keyPairId = c := rfl
  have hcount : (treeAfter E k keyNum c).usedKeyCount = c := rfl
  rw [hid, hcount, h2]
  refine ⟨rfl, ⟨leafAt E k c c, treeAfter_leaf_get E k keyNum c c (by omega), ?_⟩, ?_, ?_⟩
  · simp [leafAt]
  · intro j kp hj h
    exact (hused j kp h).2 (by rw [hcount]; exact hj)
  · intro u msg1 s1 hu hs1
    obtain ⟨d, hcd, hd, rfl⟩ := signsTo_treeAfter E k keyNum (c + 1) (by omega) u hu
    obtain ⟨_, sg1, _, rfl, _⟩ := sign_treeAfter_inv E k keyNum d msg1 s1 hd hs1
    have hid1 : (sigObjAfter E k keyNum d msg1 sg1).keyPairId = d := rfl
    rw [hid1]
    omega

theorem C5_one_time_use_of_leaves_witness :
    Reachable toyEnv 0 4 (treeAfter toyEnv 0 4 1) ∧
      (∀ j kp, (treeAfter toyEnv 0 4 1)._leaves[j]? = some kp →
        (kp.used = true ↔ j < (treeAfter toyEnv 0 4 1).usedKeyCount)) ∧
      ∀ msg s, (MerkleKeyTree.sign toyEnv (treeAfter toyEnv 0 4 1) msg).1 = Except.ok s →
        s.keyPairId = (treeAfter toyEnv 0 4 1).usedKeyCount :=
  have hr : Reachable toyEnv 0 4 (treeAfter toyEnv 0 4 1) :=
    reachable_of_le toyEnv toyEnv_hex 0 4 1 (by decide)
  ⟨hr, (C5_one_time_use_of_leaves toyEnv 0 4 _ hr).1,
    fun msg s h => ((C5_one_time_use_of_leaves toyEnv 0 4 _ hr).2 msg s h).1⟩

/-! ## The last leaf -/

theorem reachable_last_leaf (E : Env) (k keyNum : Nat) (t : MerkleKeyTree)
    (ht : Reachable E k keyNum t) :
    t.size = treeSize keyNum ∧ t.usedKeyCount + 1 ≤ t.size ∧
      (∃ kp, t._leaves[t.size - 1]? = some kp) ∧
      (∀ kp, t._leaves[t.size - 1]? = some kp → kp.used = false) ∧
      ∀ msg s, (MerkleKeyTree.sign E t msg).1 = Except.ok s → s.keyPairId + 1 < t.size := by
  obtain ⟨c, hc, rfl⟩ := reachable_treeAfter E k keyNum t ht
  have hsize : (treeAfter E k keyNum c).size = treeSize keyNum := rfl
  have hcount : (treeAfter E k keyNum c).usedKeyCount = c := rfl
  have hpos := treeSize_pos keyNum
  rw [hsize, hcount]
  refine ⟨rfl, hc, ⟨_, treeAfter_leaf_get E k keyNum c _ (by omega)⟩, ?_, ?_⟩
  · intro kp h
    obtain ⟨_, rfl⟩ := treeAfter_leaf E k keyNum c _ kp h
    simp only [leafAt, decide_eq_false_iff_not]
    omega
  · intro msg s hs
    obtain ⟨hlt, sg, _, rfl, _⟩ := sign_treeAfter_inv E k keyNum c msg s hc hs
    exact hlt

/-- C6, the defect: the text raised by the guard (line 151, `This is your last
keypair on this tree, USE IT WISELY`) and the comment above it (line 150,
`GIVE USER WARNING INSTEAD OF THROWING AN ERROR`) say that the last key pair
is still there to be used, but the guard raises instead of warning. On a fresh
tree of size 4 the calls `sign('a')`, `sign('b')`, `sign('c')` consume the
leaves 0, 1 and 2; the fourth call `sign('d')` raises and changes nothing, so
every later call finds the same state and raises again; leaf 3 is unused in
that state, and no state reached by calls of `sign` has leaf 3 consumed. -/
theorem C6_last_leaf_blocked_on_size_four :
    MerkleKeyTree.new toyEnv 0 4 = Except.ok (treeAfter toyEnv 0 4 0) ∧
      (∃ s1, MerkleKeyTree.sign toyEnv (treeAfter toyEnv 0 4 0) (Val.string "a") =
          (Except.ok s1, treeAfter toyEnv 0 4 1) ∧ s1.keyPairId = 0) ∧
      (∃ s2, MerkleKeyTree.sign toyEnv (treeAfter toyEnv 0 4 1) (Val.string "b") =
          (Except.ok s2, treeAfter toyEnv 0 4 2) ∧ s2.keyPairId = 1) ∧
      (∃ s3, MerkleKeyTree.sign toyEnv (treeAfter toyEnv 0 4 2) (Val.string "c") =
          (Except.ok s3, treeAfter toyEnv 0 4 3) ∧ s3.keyPairId = 2) ∧
      MerkleKeyTree.sign toyEnv (treeAfter toyEnv 0 4 3) (Val.string "d") =
        (Except.error (JsError.error "This is your last keypair on this tree, USE IT WISELY"),
          treeAfter toyEnv 0 4 3) ∧
      (treeAfter toyEnv 0 4 3).usedKeyCount = 3 ∧
      (∃ kp, (treeAfter toyEnv 0 4 3)._leaves[3]? = some kp ∧ kp.used = false) ∧
      (∀ u, SignsTo toyEnv (treeAfter toyEnv 0 4 3) u → u = treeAfter toyEnv 0 4 3) ∧
      ¬ ∃ t, Reachable toyEnv 0 4 t ∧ ∃ kp, t._leaves[3]? = some kp ∧ kp.used = true := by
  have h4 : treeSize 4 = 4 := rfl
  obtain ⟨g1, _, _, _, e1⟩ :=
    sign_treeAfter_ok toyEnv toyEnv_hex 0 4 0 (Val.string "a") (by decide)
  obtain ⟨g2, _, _, _, e2⟩ :=
    sign_treeAfter_ok toyEnv toyEnv_hex 0 4 1 (Val.string "b") (by decide)
  obtain ⟨g3, _, _, _, e3⟩ :=
    sign_treeAfter_ok toyEnv toyEnv_hex 0 4 2 (Val.string "c") (by decide)
  have e4 := sign_treeAfter_last toyEnv 0 4 3 (Val.string "d") (by decide)
  refine ⟨new_eq toyEnv 0 4, ⟨_, e1, by rw [sigObjAfter]⟩,
    ⟨_, e2, by rw [sigObjAfter]⟩,
    ⟨_, e3, by rw [sigObjAfter]⟩, e4, rfl,
    ⟨_, treeAfter_leaf_get toyEnv 0 4 3 3 (by decide), by simp [leafAt]⟩, ?_, ?_⟩
  · intro u hu
    obtain ⟨d, h1, h2, rfl⟩ := signsTo_treeAfter toyEnv 0 4 3 (by decide) u hu
    rw [h4] at h2
    have hd : d = 3 := by omega
    rw [hd]
  · rintro ⟨t, ht, kp, h1, h2⟩
    obtain ⟨hsize, _, _, h3, _⟩ := reachable_last_leaf toyEnv 0 4 t ht
    have h5 : t.size = 4 := hsize
    rw [h5] at h3
    rw [h3 kp h1] at h2
    cases h2

/-! ## Rows of a tree of any size -/

theorem iterate_nextRow_length (E : Env) (row : List Digest) (m : Nat) :
    ((nextRow E)^[m] row).length = halve^[m] row.length := by
  induction m generalizing row with
  | zero => rfl
  | succ m ih =>
    rw [Function.iterate_succ_apply, Function.iterate_succ_apply, ih, nextRow_length]
    rfl

theorem exists_odd_row (n : Nat) (h1 : 1 ≤ n) (hn : ¬ ∃ L, n = 2 ^ L) :
    ∃ m, m < Nat.clog 2 n ∧ halve^[m] n % 2 = 1 ∧ 1 < halve^[m] n := by
  induction n using Nat.strong_induction_on with
  | _ n ih =>
    have h2 : 2 ≤ n := by
      by_contra hlt
      have : n = 1 := by omega
      exact hn ⟨0, by simpa using this⟩
    have hclog := Nat.clog_of_two_le (b := 2) (by norm_num) h2
    by_cases hodd : n % 2 = 1
    · exact ⟨0, by omega, by simpa using hodd, by simp only [Function.iterate_zero, id]; omega⟩
    · have hh : (n + 2 - 1) / 2 = halve n := by
        unfold halve; congr 1
      have hhalf : n = 2 * halve n := by
        unfold halve; omega
      have hpos : 1 ≤ halve n := by unfold halve; omega
      have hlt : halve n < n := by unfold halve; omega
      have hnp : ¬ ∃ L, halve n = 2 ^ L := by
        rintro ⟨L, hL⟩
        exact hn ⟨L + 1, by rw [hhalf, hL, pow_succ]; ring⟩
      obtain ⟨m, hm1, hm2, hm3⟩ := ih (halve n) hlt hpos hnp
      refine ⟨m + 1, ?_, ?_, ?_⟩
      · rw [hclog, hh]; omega
      · rw [Function.iterate_succ_apply]; exact hm2
      · rw [Function.iterate_succ_apply]; exact hm3

theorem firstRowOf_length (E : Env) (k size : Nat) : (firstRowOf E k size).length = size := by
  simp [firstRowOf]

theorem treeAfter_rows_getElem? (E : Env) (k keyNum c m : Nat)
    (hm : m ≤ Nat.clog 2 (treeSize keyNum)) :
    (treeAfter E k keyNum c).rows[m]? =
      some ((nextRow E)^[m] (firstRowOf E k (treeSize keyNum))) :=
  buildRows_getElem? E _ _ m hm

theorem nextRow_odd_last (E : Env) (row : List Digest) (hodd : row.length % 2 = 1) :
    ∃ last, row.getLast? = some last ∧
      (nextRow E row)[row.length / 2]? =
        some (hash E (Val.string (last ++ "undefined"))) := by
  have hlen : row.length - 1 < row.length := by omega
  refine ⟨row[row.length - 1], ?_, ?_⟩
  · rw [List.getLast?_eq_getElem?, List.getElem?_eq_getElem hlen]
  · rw [nextRow_getElem? E row _ (by omega)]
    have h1 : 2 * (row.length / 2) = row.length - 1 := by omega
    have h2 : row[2 * (row.length / 2) + 1]? = none := by
      rw [List.getElem?_eq_none_iff]; omega
    rw [h2, h1, List.getElem?_eq_getElem hlen]
    rfl

theorem new_reads_past_the_end (E : Env) (k size : Nat) (h1 : 1 ≤ size)
    (hn : ¬ ∃ L, size = 2 ^ L) :
    ∃ t, MerkleKeyTree.new E k size = Except.ok t ∧ t.size = size ∧
      ∃ m row last, t.rows[m]? = some row ∧ row.length % 2 = 1 ∧ 1 < row.length ∧
        row.getLast? = some last ∧
        ((t.rows[m + 1]?).bind fun above => above[row.length / 2]?) =
          some (hash E (Val.string (last ++ "undefined"))) := by
  have hsize : treeSize size = size := by
    unfold treeSize; rw [if_neg (by omega)]
  refine ⟨treeAfter E k size 0, new_eq E k size, hsize, ?_⟩
  obtain ⟨m, hm1, hm2, hm3⟩ := exists_odd_row size h1 hn
  have hrow := treeAfter_rows_getElem? E k size 0 m (by rw [hsize]; omega)
  have hrow1 := treeAfter_rows_getElem? E k size 0 (m + 1) (by rw [hsize]; omega)
  rw [hsize] at hrow hrow1
  have hlen := iterate_nextRow_length E (firstRowOf E k size) m
  rw [firstRowOf_length] at hlen
  obtain ⟨last, hl1, hl2⟩ := nextRow_odd_last E _ (by rw [hlen]; exact hm2)
  refine ⟨m, _, last, hrow, by rw [hlen]; exact hm2, by rw [hlen]; exact hm3, hl1, ?_⟩
  rw [hrow1, Function.iterate_succ_apply', Option.some_bind]
  exact hl2

theorem three_not_pow : ¬ ∃ L, 3 = 2 ^ L := by
  rintro ⟨L, h⟩
  have h2 : L < 2 := by
    by_contra hc
    have : 2 ^ 2 ≤ 2 ^ L := Nat.pow_le_pow_right (by norm_num) (by omega)
    omega
  interval_cases L <;> simp at h

/-- C7, as the code has it: the constructor has no validation of `size`. For
every size at least 1 that is not a power of two it returns a tree, some row
of which has an odd length above 1; the entry above the last digest of that
row is the hash of that digest followed by the text `undefined`, the
rendering of the out-of-range right neighbour. -/
theorem C7_construction_accepts_bad_sizes (E : Env) (k size : Nat) (h1 : 1 ≤ size)
    (hn : ¬ ∃ L, size = 2 ^ L) :
    ∃ t, MerkleKeyTree.new E k size = Except.ok t ∧ t.size = size ∧
      ∃ m row last, t.rows[m]? = some row ∧ row.length % 2 = 1 ∧ 1 < row.length ∧
        row.getLast? = some last ∧
        ((t.rows[m + 1]?).bind fun above => above[row.length / 2]?) =
          some (hash E (Val.string (last ++ "undefined"))) :=
  new_reads_past_the_end E k size h1 hn

theorem C7_construction_accepts_bad_sizes_witness :
    1 ≤ 6 ∧ (¬ ∃ L, 6 = 2 ^ L) ∧
      ∃ t, MerkleKeyTree.new toyEnv 0 6 = Except.ok t ∧ t.size = 6 ∧
        ∃ m row last, t.rows[m]? = some row ∧ row.length % 2 = 1 ∧ 1 < row.length ∧
          row.getLast? = some last ∧
          ((t.rows[m + 1]?).bind fun above => above[row.length / 2]?) =
            some (hash toyEnv (Val.string (last ++ "undefined"))) :=
  have h6 : ¬ ∃ L, 6 = 2 ^ L := by
    rintro ⟨L, h⟩
    have h2 : L < 3 := by
      by_contra hc
      have : 2 ^ 3 ≤ 2 ^ L := Nat.pow_le_pow_right (by norm_num) (by omega)
      omega
    interval_cases L <;> simp at h
  ⟨by decide, h6, C7_construction_accepts_bad_sizes toyEnv 0 6 (by decide) h6⟩

/-- C7 as stated fails: `new MerkleKeyTree(3)` raises nothing. It returns a
tree whose first row has the odd length 3, and the second entry of the next
row is the hash of the third leaf digest followed by `undefined`. -/
theorem C7_construction_counterexample :
    (¬ ∃ L, 3 = 2 ^ L) ∧
      MerkleKeyTree.new toyEnv 0 3 = Except.ok (treeAfter toyEnv 0 3 0) ∧
      (treeAfter toyEnv 0 3 0).rows[0]? = some (firstRowOf toyEnv 0 3) ∧
      (firstRowOf toyEnv 0 3).length = 3 ∧
      ((treeAfter toyEnv 0 3 0).rows[1]?).bind (fun above => above[1]?) =
        some (hash toyEnv
          (Val.string (jsStr (firstRowOf toyEnv 0 3)[2]? ++ "undefined"))) := by
  have hc : Nat.clog 2 (treeSize 3) = 2 := by
    have : treeSize 3 = 3 := rfl
    rw [this, Nat.clog_of_two_le (by norm_num) (by norm_num),
      Nat.clog_of_two_le (by norm_num) (by norm_num)]
    simp [Nat.clog]
  have h3 : treeSize 3 = 3 := rfl
  refine ⟨three_not_pow, new_eq toyEnv 0 3, ?_, firstRowOf_length toyEnv 0 3, ?_⟩
  · have := treeAfter_rows_getElem? toyEnv 0 3 0 0 (by omega)
    rw [this]; rfl
  · have := treeAfter_rows_getElem? toyEnv 0 3 0 1 (by omega)
    rw [this, h3, Option.some_bind, Function.iterate_one,
      nextRow_getElem? toyEnv _ 1 (by rw [firstRowOf_length]; norm_num)]
    have h2 : (firstRowOf toyEnv 0 3)[2 * 1 + 1]? = none := by
      rw [List.getElem?_eq_none_iff, firstRowOf_length]
    rw [h2]
    rfl

/-! ## Trees whose size is a power of two -/

theorem treeSize_pow (L : Nat) : treeSize (2 ^ L) = 2 ^ L := by
  unfold treeSize
  rw [if_neg (by positivity)]

theorem halve_iterate_pow (L m : Nat) (hm : m ≤ L) : halve^[m] (2 ^ L) = 2 ^ (L - m) := by
  induction m with
  | zero => rfl
  | succ m ih =>
    rw [Function.iterate_succ_apply', ih (by omega)]
    have : L - m = (L - (m + 1)) + 1 := by omega
    rw [this, pow_succ]
    unfold halve
    omega

theorem verifyLoop_walk (E : Env) (R : Nat → List Digest) (L : Nat)
    (hR : ∀ m, m < L → R (m + 1) = nextRow E (R m))
    (hlen : ∀ m, m ≤ L → (R m).length = 2 ^ (L - m)) (path : List (Option Digest))
    (n m idx : Nat) (h : Digest) (hmn : m + n ≤ L) (hidx : idx < 2 ^ (L - m))
    (hh : (R m)[idx]? = some h)
    (hpath : ∀ i, m ≤ i → i < m + n →
      path[i]? = some (siblingRead (R i) (idx / 2 ^ (i - m)))) :
    ∃ h1, verifyLoop E path n m idx h = (idx / 2 ^ n, h1) ∧
      (R (m + n))[idx / 2 ^ n]? = some h1 := by
  induction n generalizing m idx h with
  | zero => exact ⟨h, by simp [verifyLoop], by simpa using hh⟩
  | succ n ih =>
    have hm : m < L := by omega
    have hl := hlen m (by omega)
    have hl2 : 2 ^ (L - m) = 2 * 2 ^ (L - (m + 1)) := by
      have : L - m = (L - (m + 1)) + 1 := by omega
      rw [this, pow_succ]; ring
    have hp0 := hpath m (le_refl m) (by omega)
    simp only [Nat.sub_self, pow_zero, Nat.div_one] at hp0
    have hstep : ∃ h1, (R (m + 1))[idx / 2]? = some h1 ∧
        (if idx % 2 ≠ 0 then hash E (Val.string (jsStr (path[m]?).join ++ h))
          else hash E (Val.string (h ++ jsStr (path[m]?).join))) = h1 := by
      rw [hR m hm, nextRow_getElem? E (R m) (idx / 2) (by rw [hl]; omega), hp0]
      refine ⟨_, rfl, ?_⟩
      have hidx' : idx < (R m).length := by rw [hl]; exact hidx
      by_cases hodd : idx % 2 ≠ 0
      · have e1 : 2 * (idx / 2) = idx - 1 := by omega
        have e2 : idx - 1 + 1 = idx := by omega
        rw [if_pos hodd, e1, e2, hh]
        simp only [siblingRead, if_pos hodd, Option.join]
        rfl
      · have e1 : 2 * (idx / 2) = idx := by omega
        rw [if_neg hodd, e1, hh]
        simp only [siblingRead, if_neg hodd, Option.join]
        rfl
    obtain ⟨h1, hh1, hstep⟩ := hstep
    have hidx1 : idx / 2 < 2 ^ (L - (m + 1)) := by omega
    obtain ⟨h2, hv, hr⟩ := ih (m + 1) (idx / 2) h1 (by omega) hidx1 hh1 (by
      intro i hi1 hi2
      rw [hpath i (by omega) (by omega)]
      have : i - m = (i - (m + 1)) + 1 := by omega
      rw [this, pow_succ, Nat.mul_comm, Nat.div_div_eq_div_mul])
    refine ⟨h2, ?_, ?_⟩
    · rw [verifyLoop, hstep, parentIdx_eq, hv, pow_succ, Nat.mul_comm,
        Nat.div_div_eq_div_mul]
    · have e : m + (n + 1) = m + 1 + n := by omega
      rw [e, pow_succ, Nat.mul_comm, ← Nat.div_div_eq_div_mul]
      exact hr

theorem verify_of_lamport_true (E : Env) (t : MerkleKeyTree) (s : SigObj)
    (h : lamport.verify E s.pubKey s.message s.signature = Except.ok true) :
    MerkleKeyTree.verify E t s =
      Except.ok (decide ((s.path[s.path.length - 1]?).join =
        some (verifyLoop E s.path (s.path.length - 1) 0 s.keyPairId
          (hash E (pubKeyVal s.pubKey))).2)) := by
  unfold MerkleKeyTree.verify
  rw [h]
  simp only []
  split <;> simp_all

theorem verify_of_lamport_false (E : Env) (t : MerkleKeyTree) (s : SigObj)
    (h : lamport.verify E s.pubKey s.message s.signature = Except.ok false) :
    MerkleKeyTree.verify E t s = Except.ok false := by
  unfold MerkleKeyTree.verify
  rw [h]

theorem rowAt_succ (E : Env) (k size m : Nat) :
    rowAt E k size (m + 1) = nextRow E (rowAt E k size m) :=
  Function.iterate_succ_apply' _ _ _

theorem rowAt_length_pow (E : Env) (k L m : Nat) (hm : m ≤ L) :
    (rowAt E k (2 ^ L) m).length = 2 ^ (L - m) := by
  rw [rowAt, iterate_nextRow_length, firstRowOf_length, halve_iterate_pow L m hm]

theorem rowAt_zero_getElem? (E : Env) (k size c : Nat) (hc : c < size) :
    (rowAt E k size 0)[c]? =
      some (hash E (pubKeyVal (lamport.generate E (k + 512 * c)).pubKey)) := by
  simp only [rowAt, Function.iterate_zero, id, firstRowOf, List.getElem?_map,
    List.getElem?_range hc, Option.map_some']

theorem treeAfter_pow_rows (E : Env) (k L c m : Nat) (hm : m ≤ L) :
    (treeAfter E k (2 ^ L) c).rows[m]? = some (rowAt E k (2 ^ L) m) := by
  have := treeAfter_rows_getElem? E k (2 ^ L) c m
    (by rw [treeSize_pow, Nat.clog_pow 2 L (by norm_num)]; exact hm)
  rw [treeSize_pow] at this
  exact this

theorem treeAfter_pow_rowNum (E : Env) (k L c : Nat) :
    (treeAfter E k (2 ^ L) c).rowNum = L + 1 := by
  simp only [treeAfter, buildRows_length, treeSize_pow, Nat.clog_pow 2 L (by norm_num)]

theorem treeAfter_pow_rootHash (E : Env) (k L c : Nat) :
    (treeAfter E k (2 ^ L) c).rootHash = (rowAt E k (2 ^ L) L)[0]? := by
  have h := treeAfter_pow_rows E k L c L (le_refl L)
  have hn := treeAfter_pow_rowNum E k L c
  simp only [treeAfter] at h hn ⊢
  rw [hn, Nat.add_sub_cancel, h, Option.some_bind]

theorem sigObjAfter_pow_path (E : Env) (k L c : Nat) (msg : Val) (sig : List Val) :
    (sigObjAfter E k (2 ^ L) c msg sig).path.length = L + 1 ∧
      (∀ i, i < L → (sigObjAfter E k (2 ^ L) c msg sig).path[i]? =
        some (siblingRead (rowAt E k (2 ^ L) i) (c / 2 ^ i))) ∧
      (sigObjAfter E k (2 ^ L) c msg sig).path[L]? = some ((rowAt E k (2 ^ L) L)[0]?) := by
  have hn := treeAfter_pow_rowNum E k L c
  have hroot := treeAfter_pow_rootHash E k L c
  simp only [sigObjAfter]
  rw [hn, hroot, Nat.add_sub_cancel]
  have hlen : (rawPath (treeAfter E k (2 ^ L) c).rows (L + 1) 0 c).length = L + 1 := by
    simp [rawPath]
  refine ⟨by rw [List.length_set, hlen], ?_, ?_⟩
  · intro i hi
    rw [List.getElem?_set_ne (by omega)]
    simp only [rawPath, List.getElem?_map, List.getElem?_range (show i < L + 1 by omega),
      Option.map_some', Nat.zero_add, treeAfter_pow_rows E k L c i (by omega), Option.getD_some]
  · rw [List.getElem?_set_self (by omega)]

theorem sigObjAfter_walk (E : Env) (k L c : Nat) (msg : Val) (sig : List Val)
    (hc : c < 2 ^ L) :
    ∃ root, (rowAt E k (2 ^ L) L)[0]? = some root ∧
      (sigObjAfter E k (2 ^ L) c msg sig).path[L]? = some (some root) ∧
      verifyLoop E (sigObjAfter E k (2 ^ L) c msg sig).path L 0 c
        (hash E (pubKeyVal (lamport.generate E (k + 512 * c)).pubKey)) = (0, root) := by
  obtain ⟨_, hp, hlast⟩ := sigObjAfter_pow_path E k L c msg sig
  obtain ⟨h1, hw, hr⟩ := verifyLoop_walk E (rowAt E k (2 ^ L)) L
    (fun m _ => rowAt_succ E k (2 ^ L) m) (fun m hm => rowAt_length_pow E k L m hm)
    (sigObjAfter E k (2 ^ L) c msg sig).path L 0 c _ (by omega) (by simpa using hc)
    (rowAt_zero_getElem? E k (2 ^ L) c hc)
    (fun i _ hi => by rw [hp i (by omega)]; simp)
  have h0 : c / 2 ^ L = 0 := Nat.div_eq_of_lt hc
  rw [h0] at hw hr
  rw [Nat.zero_add] at hr
  exact ⟨h1, hr, by rw [hlast, hr], hw⟩

theorem verify_sigObjAfter (E : Env) (k L c : Nat) (msg : Val) (sig : List Val)
    (hc : c < 2 ^ L)
    (hv : lamport.verify E (lamport.generate E (k + 512 * c)).pubKey msg sig =
      Except.ok true) (t : MerkleKeyTree) :
    MerkleKeyTree.verify E t (sigObjAfter E k (2 ^ L) c msg sig) = Except.ok true := by
  obtain ⟨root, _, hlast, hw⟩ := sigObjAfter_walk E k L c msg sig hc
  obtain ⟨hlen, _, _⟩ := sigObjAfter_pow_path E k L c msg sig
  have hpk : (sigObjAfter E k (2 ^ L) c msg sig).pubKey =
      (lamport.generate E (k + 512 * c)).pubKey := by rw [sigObjAfter]
  have hid : (sigObjAfter E k (2 ^ L) c msg sig).keyPairId = c := by rw [sigObjAfter]
  have hmsg : (sigObjAfter E k (2 ^ L) c msg sig).message = msg := by rw [sigObjAfter]
  have hsg : (sigObjAfter E k (2 ^ L) c msg sig).signature = sig := by rw [sigObjAfter]
  rw [verify_of_lamport_true E t _ (by rw [hpk, hmsg, hsg]; exact hv), hlen,
    Nat.add_sub_cancel, hid, hpk, hw, hlast]
  simp

/-- C1: for a tree built with the size `2 ^ L`, in every state reached from
construction by calls of `sign` and for every message, if `sign` does not
raise then `verify`, called on the tree as `sign` left it, accepts the
signature object returned; the hash oracle returns 32 hexadecimal
characters. -/
theorem C1_merkle_sign_verify_roundtrip (E : Env) (hE : HexDigests E) (k L : Nat)
    (t : MerkleKeyTree) (ht : Reachable E k (2 ^ L) t) (msg : Val) (s : SigObj)
    (hs : (MerkleKeyTree.sign E t msg).1 = Except.ok s) :
    MerkleKeyTree.verify E (MerkleKeyTree.sign E t msg).2 s = Except.ok true := by
  obtain ⟨c, hc, rfl⟩ := reachable_treeAfter E k (2 ^ L) t ht
  obtain ⟨hlt, sg, hsg, rfl, _⟩ := sign_treeAfter_inv E k (2 ^ L) c msg s hc hs
  rw [treeSize_pow] at hlt
  obtain ⟨sg1, h1, _, h3⟩ := generate_sign_ok E hE (k + 512 * c) msg
  rw [hsg] at h1
  rw [Except.ok.inj h1]
  exact verify_sigObjAfter E k L c msg sg1 (by omega) h3 _

theorem C1_merkle_sign_verify_roundtrip_witness :
    HexDigests toyEnv ∧ Reachable toyEnv 0 (2 ^ 2) (treeAfter toyEnv 0 (2 ^ 2) 0) ∧
      (MerkleKeyTree.sign toyEnv (treeAfter toyEnv 0 (2 ^ 2) 0) (Val.string "hello")).1 =
        Except.ok (sigObjAfter toyEnv 0 (2 ^ 2) 0 (Val.string "hello")
          (toySignature (Val.string "hello"))) ∧
      MerkleKeyTree.verify toyEnv
        (MerkleKeyTree.sign toyEnv (treeAfter toyEnv 0 (2 ^ 2) 0) (Val.string "hello")).2
        (sigObjAfter toyEnv 0 (2 ^ 2) 0 (Val.string "hello")
          (toySignature (Val.string "hello"))) = Except.ok true :=
  have hr : Reachable toyEnv 0 (2 ^ 2) (treeAfter toyEnv 0 (2 ^ 2) 0) :=
    Reachable.new _ (new_eq toyEnv 0 (2 ^ 2))
  have hs : (MerkleKeyTree.sign toyEnv (treeAfter toyEnv 0 (2 ^ 2) 0) (Val.string "hello")).1 =
      Except.ok (sigObjAfter toyEnv 0 (2 ^ 2) 0 (Val.string "hello")
        (toySignature (Val.string "hello"))) := by
    have h := sign_treeAfter toyEnv 0 (2 ^ 2) 0 (Val.string "hello") (by decide)
    simp only [Nat.mul_zero, Nat.add_zero] at h
    rw [toySignature_eq] at h
    rw [h]
  ⟨toyEnv_hex, hr, hs,
    C1_merkle_sign_verify_roundtrip toyEnv toyEnv_hex 0 2 _ hr (Val.string "hello") _ hs⟩

/-! ## What `verify` compares -/

theorem verifyLoop_eq_foldl (E : Env) (path : List (Option Digest)) (n i idx : Nat)
    (h : Digest) (hn : i + n ≤ path.length) :
    verifyLoop E path n i idx h =
      ((path.drop i).take n).foldl
        (fun (st : Nat × Digest) (auth : Option Digest) =>
          (parentIdx st.1,
            if st.1 % 2 ≠ 0 then hash E (Val.string (jsStr auth ++ st.2))
            else hash E (Val.string (st.2 ++ jsStr auth))))
        (idx, h) := by
  induction n generalizing i idx h with
  | zero => simp [verifyLoop]
  | succ n ih =>
    have hi : i < path.length := by omega
    rw [verifyLoop, ih (i + 1) _ _ (by omega), List.drop_eq_getElem_cons hi,
      List.take_succ_cons, List.foldl_cons, List.getElem?_eq_getElem hi]
    rfl

theorem recomputeRoot_eq (E : Env) (s : SigObj) :
    recomputeRoot E s =
      (verifyLoop E s.path (s.path.length - 1) 0 s.keyPairId
        (hash E (pubKeyVal s.pubKey))).2 := by
  rw [verifyLoop_eq_foldl E s.path _ 0 _ _ (by omega), List.drop_zero,
    ← List.dropLast_eq_take]
  rfl

theorem verify_true_inv (E : Env) (t : MerkleKeyTree) (s : SigObj)
    (h : MerkleKeyTree.verify E t s = Except.ok true) :
    lamport.verify E s.pubKey s.message s.signature = Except.ok true ∧
      (s.path[s.path.length - 1]?).join = some (recomputeRoot E s) := by
  cases hl : lamport.verify E s.pubKey s.message s.signature with
  | error e =>
    unfold MerkleKeyTree.verify at h
    rw [hl] at h
    cases h
  | ok b =>
    cases b with
    | false =>
      rw [verify_of_lamport_false E t s hl] at h
      cases h
    | true =>
      rw [verify_of_lamport_true E t s hl] at h
      refine ⟨rfl, ?_⟩
      rw [recomputeRoot_eq]
      simpa using h

/-- C3, as the code has it: `verify` returns true only if the root recomputed
from `pubKey`, `keyPairId` and the path entries before the last equals the
last entry of the path of the signature object itself; the `rootHash` stored
in the tree is not read, so every tree gives the same answer. -/
theorem C3_verify_compares_claimed_root (E : Env) (t : MerkleKeyTree) (s : SigObj)
    (h : MerkleKeyTree.verify E t s = Except.ok true) :
    s.path.getLast? = some (some (recomputeRoot E s)) ∧
      ∀ u : MerkleKeyTree, MerkleKeyTree.verify E u s = Except.ok true := by
  obtain ⟨_, h2⟩ := verify_true_inv E t s h
  refine ⟨?_, fun u => h⟩
  rw [List.getLast?_eq_getElem?]
  cases hp : s.path[s.path.length - 1]? with
  | none => rw [hp] at h2; cases h2
  | some x =>
    rw [hp] at h2
    cases x with
    | none => cases h2
    | some d =>
      simp only [Option.join] at h2
      rw [← Option.some.inj h2]

/-! ## The toy trees of size 2 -/

theorem generate_pubKey_head (E : Env) (k : Nat) :
    ∃ tail, (lamport.generate E k).pubKey =
      (hash E (random32Bytes E k), hash E (random32Bytes E (k + 1))) :: tail := by
  rw [generate_aligned E k, generate_eq]
  dsimp only
  rw [generateLoop_fst, List.range_succ_eq_map]
  exact ⟨_, rfl⟩

theorem toy_leaf_digest (k : Nat) :
    hash toyEnv (pubKeyVal (lamport.generate toyEnv k).pubKey) = toyLeafDigest k := by
  obtain ⟨tail, h⟩ := generate_pubKey_head toyEnv k
  rw [h, toy_hash_seed]
  have h0 : ∀ (d e : Digest) (l : List (Digest × Digest)),
      hash toyEnv (pubKeyVal ((d, e) :: l)) = slice0 (toyGetHash (some d)) 32 :=
    fun _ _ _ => rfl
  rw [h0]
  unfold toyLeafDigest
  split
  · decide
  · decide

theorem toy_leaf_digest_concat (k : Nat) :
    hash toyEnv (Val.string (toyLeafDigest k ++ toyLeafDigest k)) = toyLeafDigest k := by
  unfold toyLeafDigest
  split
  · decide
  · decide

theorem toy_rowAt_zero (k : Nat) :
    rowAt toyEnv k (2 ^ 1) 0 = [toyLeafDigest k, toyLeafDigest k] := by
  have h1 : toyLeafDigest (k + 512 * 1) = toyLeafDigest k := by
    unfold toyLeafDigest
    have : (k + 512 * 1) % 2 = k % 2 := by omega
    rw [this]
  have h2 : List.range (2 ^ 1) = [0, 1] := rfl
  simp only [rowAt, Function.iterate_zero, id, firstRowOf, h2, List.map_cons, List.map_nil,
    toy_leaf_digest, h1, Nat.mul_zero, Nat.add_zero]

theorem toy_rowAt_one (k : Nat) :
    (rowAt toyEnv k (2 ^ 1) 1)[0]? = some (toyLeafDigest k) := by
  rw [rowAt_succ, nextRow_getElem? toyEnv _ 0 (by rw [toy_rowAt_zero]; simp),
    toy_rowAt_zero]
  simp only [Nat.mul_zero, List.getElem?_cons_zero, Nat.zero_add, List.getElem?_cons_succ, jsStr,
    toy_leaf_digest_concat]

theorem toy_rootHash (k c : Nat) :
    (treeAfter toyEnv k (2 ^ 1) c).rootHash = some (toyLeafDigest k) := by
  rw [treeAfter_pow_rootHash, toy_rowAt_one]

theorem toy_sig_verifies (k : Nat) (msg : Val) (sig : List Val)
    (hs : lamport.sign toyEnv (lamport.generate toyEnv (k + 512 * 0)).privKey msg =
      Except.ok sig) (t : MerkleKeyTree) :
    MerkleKeyTree.verify toyEnv t (sigObjAfter toyEnv k (2 ^ 1) 0 msg sig) = Except.ok true := by
  obtain ⟨sg1, h1, _, h3⟩ := generate_sign_ok toyEnv toyEnv_hex (k + 512 * 0) msg
  rw [hs] at h1
  rw [Except.ok.inj h1]
  exact verify_sigObjAfter toyEnv k 1 0 msg sg1 (by decide) h3 t

theorem toy_recomputeRoot (k : Nat) (msg : Val) (sig : List Val) :
    recomputeRoot toyEnv (sigObjAfter toyEnv k (2 ^ 1) 0 msg sig) = toyLeafDigest k := by
  obtain ⟨root, hroot, _, hw⟩ := sigObjAfter_walk toyEnv k 1 0 msg sig (by decide)
  obtain ⟨hlen, _, _⟩ := sigObjAfter_pow_path toyEnv k 1 0 msg sig
  rw [toy_rowAt_one] at hroot
  have hpk : (sigObjAfter toyEnv k (2 ^ 1) 0 msg sig).pubKey =
      (lamport.generate toyEnv (k + 512 * 0)).pubKey := by rw [sigObjAfter]
  have hid : (sigObjAfter toyEnv k (2 ^ 1) 0 msg sig).keyPairId = 0 := by rw [sigObjAfter]
  rw [recomputeRoot_eq, hlen, Nat.add_sub_cancel, hid, hpk, hw]
  exact (Option.some.inj hroot).symm

theorem toySignature_eq' (msg : Val) :
    lamport.sign toyEnv (lamport.generate toyEnv (0 + 512 * 0)).privKey msg =
      Except.ok (toySignature msg) :=
  toySignature_eq msg

/-- C3 as stated fails: a signature object made by the toy tree built from
draw 0 is accepted by `verify` called on the toy tree built from draw 1,
although the root recomputed from it differs from the `rootHash` stored in
that tree. -/
theorem C3_stored_root_counterexample :
    MerkleKeyTree.new toyEnv 1 (2 ^ 1) = Except.ok (treeAfter toyEnv 1 (2 ^ 1) 0) ∧
      MerkleKeyTree.verify toyEnv (treeAfter toyEnv 1 (2 ^ 1) 0)
        (sigObjAfter toyEnv 0 (2 ^ 1) 0 (Val.string "hello")
          (toySignature (Val.string "hello"))) = Except.ok true ∧
      (treeAfter toyEnv 1 (2 ^ 1) 0).rootHash = some ⟨List.replicate 32 '6'⟩ ∧
      recomputeRoot toyEnv
        (sigObjAfter toyEnv 0 (2 ^ 1) 0 (Val.string "hello")
          (toySignature (Val.string "hello"))) = ⟨List.replicate 32 '5'⟩ ∧
      some (recomputeRoot toyEnv
        (sigObjAfter toyEnv 0 (2 ^ 1) 0 (Val.string "hello")
          (toySignature (Val.string "hello")))) ≠ (treeAfter toyEnv 1 (2 ^ 1) 0).rootHash := by
  have h1 := toy_rootHash 1 0
  have h2 := toy_recomputeRoot 0 (Val.string "hello") (toySignature (Val.string "hello"))
  refine ⟨new_eq toyEnv 1 (2 ^ 1), toy_sig_verifies 0 _ _ (toySignature_eq' _) _, ?_, ?_, ?_⟩
  · rw [h1]; rfl
  · rw [h2]; rfl
  · rw [h1, h2]; decide

theorem C3_verify_compares_claimed_root_witness :
    MerkleKeyTree.verify toyEnv (treeAfter toyEnv 1 (2 ^ 1) 0)
        (sigObjAfter toyEnv 0 (2 ^ 1) 0 (Val.string "hello")
          (toySignature (Val.string "hello"))) = Except.ok true ∧
      (sigObjAfter toyEnv 0 (2 ^ 1) 0 (Val.string "hello")
          (toySignature (Val.string "hello"))).path.getLast? =
        some (some (recomputeRoot toyEnv
          (sigObjAfter toyEnv 0 (2 ^ 1) 0 (Val.string "hello")
            (toySignature (Val.string "hello"))))) :=
  have hv := toy_sig_verifies 0 (Val.string "hello") (toySignature (Val.string "hello"))
    (toySignature_eq' _) (treeAfter toyEnv 1 (2 ^ 1) 0)
  ⟨hv, (C3_verify_compares_claimed_root toyEnv _ _ hv).1⟩

/-! ## Message tampering -/

theorem sigObjAfter_fields (E : Env) (k keyNum c : Nat) (msg : Val) (sig : List Val) :
    (sigObjAfter E k keyNum c msg sig).keyPairId = c ∧
      (sigObjAfter E k keyNum c msg sig).pubKey = (lamport.generate E (k + 512 * c)).pubKey ∧
      (sigObjAfter E k keyNum c msg sig).message = msg ∧
      (sigObjAfter E k keyNum c msg sig).signature = sig := by
  refine ⟨?_, ?_, ?_, ?_⟩ <;> rw [sigObjAfter]

/-- C10: when `hash(msg1)` differs from `hash(msg)`, a Lamport signature of
`msg` under a generated key pair whose two seeds hash to different digests at
every position is rejected by `lamport.verify` for `msg1`; consequently
`verify` of the tree returns false on a signature object returned by `sign`
whose `message` field was replaced by `msg1`. The hash oracle returns 32
hexadecimal characters. -/
theorem C10_message_tamper_detected (E : Env) (hE : HexDigests E) (msg msg1 : Val)
    (hmsg : hash E msg1 ≠ hash E msg) :
    (∀ k sig, (∀ p ∈ (lamport.generate E k).pubKey, p.1 ≠ p.2) →
        lamport.sign E (lamport.generate E k).privKey msg = Except.ok sig →
        lamport.verify E (lamport.generate E k).pubKey msg1 sig = Except.ok false) ∧
      ∀ k keyNum t s, Reachable E k keyNum t →
        (MerkleKeyTree.sign E t msg).1 = Except.ok s →
        (∀ p ∈ s.pubKey, p.1 ≠ p.2) →
        MerkleKeyTree.verify E (MerkleKeyTree.sign E t msg).2
          { s with message := msg1 } = Except.ok false := by
  have hl : ∀ k sig, (∀ p ∈ (lamport.generate E k).pubKey, p.1 ≠ p.2) →
      lamport.sign E (lamport.generate E k).privKey msg = Except.ok sig →
      lamport.verify E (lamport.generate E k).pubKey msg1 sig = Except.ok false :=
    fun k sig hdiff hs =>
      lamport_tamper_message_aligned E hE (generate_aligned E k)
        (by rw [generate_privKey_length]) hdiff msg msg1 hmsg sig hs
  refine ⟨hl, ?_⟩
  intro k keyNum t s ht hs hdiff
  obtain ⟨c, hc, rfl⟩ := reachable_treeAfter E k keyNum t ht
  obtain ⟨_, sg, hsg, rfl, _⟩ := sign_treeAfter_inv E k keyNum c msg s hc hs
  obtain ⟨_, hpk, _, hsig⟩ := sigObjAfter_fields E k keyNum c msg sg
  apply verify_of_lamport_false
  dsimp only
  rw [hpk, hsig]
  rw [hpk] at hdiff
  exact hl _ sg hdiff hsg

theorem toy_pubKey_distinct (j : Nat) :
    ∀ p ∈ (lamport.generate toyEnv (2 * j)).pubKey, p.1 ≠ p.2 := by
  intro p hp
  obtain ⟨i, rfl⟩ := generate_pubKey_mem toyEnv (2 * j) p hp
  have := toy_seed_pair_ne (j + i)
  have e : 2 * (j + i) = 2 * j + 2 * i := by ring
  rw [e] at this
  exact this

theorem C10_message_tamper_detected_witness :
    HexDigests toyEnv ∧
      hash toyEnv (Val.string "hellp") ≠ hash toyEnv (Val.string "hello") ∧
      lamport.verify toyEnv (lamport.generate toyEnv (2 * 0)).pubKey (Val.string "hellp")
        (toySignature (Val.string "hello")) = Except.ok false ∧
      MerkleKeyTree.verify toyEnv
        (MerkleKeyTree.sign toyEnv (treeAfter toyEnv 0 4 0) (Val.string "hello")).2
        { sigObjAfter toyEnv 0 4 0 (Val.string "hello") (toySignature (Val.string "hello")) with
          message := Val.string "hellp" } = Except.ok false :=
  have hmsg : hash toyEnv (Val.string "hellp") ≠ hash toyEnv (Val.string "hello") := by
    rw [toy_hash_string, toy_hash_string]; decide
  have hr : Reachable toyEnv 0 4 (treeAfter toyEnv 0 4 0) :=
    Reachable.new _ (new_eq toyEnv 0 4)
  have hs : (MerkleKeyTree.sign toyEnv (treeAfter toyEnv 0 4 0) (Val.string "hello")).1 =
      Except.ok (sigObjAfter toyEnv 0 4 0 (Val.string "hello")
        (toySignature (Val.string "hello"))) := by
    have h := sign_treeAfter toyEnv 0 4 0 (Val.string "hello") (by decide)
    rw [toySignature_eq'] at h
    rw [h]
  have hd : ∀ p ∈ (sigObjAfter toyEnv 0 4 0 (Val.string "hello")
      (toySignature (Val.string "hello"))).pubKey, p.1 ≠ p.2 := by
    rw [(sigObjAfter_fields toyEnv 0 4 0 _ _).2.1]
    exact toy_pubKey_distinct 0
  ⟨toyEnv_hex, hmsg,
    (C10_message_tamper_detected toyEnv toyEnv_hex (Val.string "hello") (Val.string "hellp")
      hmsg).1 (2 * 0) _ (toy_pubKey_distinct 0) (toySignature_eq _),
    (C10_message_tamper_detected toyEnv toyEnv_hex (Val.string "hello") (Val.string "hellp")
      hmsg).2 0 4 _ _ hr hs hd⟩

/-! ## Path tampering -/

theorem str_append_left_cancel (a b c : String) (h : a ++ b = a ++ c) : b = c := by
  have := congrArg String.data h
  simp only [String.data_append, List.append_cancel_left_eq] at this
  exact String.ext this

theorem str_append_right_cancel (a b c : String) (h : a ++ c = b ++ c) : a = b := by
  have := congrArg String.data h
  simp only [String.data_append, List.append_cancel_right_eq] at this
  exact String.ext this

theorem verifyLoop_congr (E : Env) (path path1 : List (Option Digest)) (n i idx : Nat)
    (h : Digest) (hag : ∀ j, i ≤ j → j < i + n → path[j]? = path1[j]?) :
    verifyLoop E path n i idx h = verifyLoop E path1 n i idx h := by
  induction n generalizing i idx h with
  | zero => rfl
  | succ n ih =>
    rw [verifyLoop, verifyLoop, hag i (le_refl i) (by omega)]
    exact ih (i + 1) _ _ (fun j h1 h2 => hag j (by omega) (by omega))

theorem verifyLoop_diverge (E : Env) (path path1 : List (Option Digest)) (n i idx : Nat)
    (h h1 : Digest) (hag : ∀ j, i ≤ j → j < i + n → path[j]? = path1[j]?)
    (hne : h ≠ h1)
    (hx : CrossInjective E (verifyInputs E path n i idx h)
      (verifyInputs E path1 n i idx h1)) :
    (verifyLoop E path n i idx h).2 ≠ (verifyLoop E path1 n i idx h1).2 := by
  induction n generalizing i idx h h1 with
  | zero => exact hne
  | succ n ih =>
    rw [verifyLoop, verifyLoop, ← hag i (le_refl i) (by omega)]
    rw [verifyInputs, verifyInputs, ← hag i (le_refl i) (by omega)] at hx
    by_cases hodd : idx % 2 ≠ 0
    · simp only [if_pos hodd] at hx ⊢
      apply ih (i + 1) _ _ _ (fun j h1 h2 => hag j (by omega) (by omega))
      · intro hc
        exact hne (str_append_left_cancel _ _ _
          (hx _ (List.mem_cons_self _ _) _ (List.mem_cons_self _ _) hc))
      · intro a ha b hb
        exact hx a (List.mem_cons_of_mem _ ha) b (List.mem_cons_of_mem _ hb)
    · simp only [if_neg hodd] at hx ⊢
      apply ih (i + 1) _ _ _ (fun j h1 h2 => hag j (by omega) (by omega))
      · intro hc
        exact hne (str_append_right_cancel _ _ _
          (hx _ (List.mem_cons_self _ _) _ (List.mem_cons_self _ _) hc))
      · intro a ha b hb
        exact hx a (List.mem_cons_of_mem _ ha) b (List.mem_cons_of_mem _ hb)

theorem verifyLoop_tamper (E : Env) (path : List (Option Digest)) (p : Nat) (a d : Digest)
    (hpa : path[p]? = some (some a)) (had : a ≠ d) (n i idx : Nat) (h : Digest)
    (hip : i ≤ p) (hpn : p < i + n)
    (hx : CrossInjective E (verifyInputs E path n i idx h)
      (verifyInputs E (path.set p (some d)) n i idx h)) :
    (verifyLoop E path n i idx h).2 ≠ (verifyLoop E (path.set p (some d)) n i idx h).2 := by
  have hplen : p < path.length := by
    by_contra hc
    rw [List.getElem?_eq_none_iff.2 (by omega)] at hpa
    cases hpa
  induction n generalizing i idx h with
  | zero => omega
  | succ n ih =>
    by_cases hi : i = p
    · subst hi
      rw [verifyLoop, verifyLoop, hpa, List.getElem?_set_self hplen]
      rw [verifyInputs, verifyInputs, hpa, List.getElem?_set_self hplen] at hx
      have hag : ∀ j, i + 1 ≤ j → j < i + 1 + n → path[j]? = (path.set i (some d))[j]? :=
        fun j h1 _ => (List.getElem?_set_ne (by omega)).symm
      simp only [Option.join, jsStr] at hx ⊢
      by_cases hodd : idx % 2 ≠ 0
      · simp only [if_pos hodd] at hx ⊢
        apply verifyLoop_diverge E _ _ n (i + 1) _ _ _ hag
        · intro hc
          exact had (str_append_right_cancel _ _ _
            (hx _ (List.mem_cons_self _ _) _ (List.mem_cons_self _ _) hc))
        · intro x hx1 y hy
          exact hx x (List.mem_cons_of_mem _ hx1) y (List.mem_cons_of_mem _ hy)
      · simp only [if_neg hodd] at hx ⊢
        apply verifyLoop_diverge E _ _ n (i + 1) _ _ _ hag
        · intro hc
          exact had (str_append_left_cancel _ _ _
            (hx _ (List.mem_cons_self _ _) _ (List.mem_cons_self _ _) hc))
        · intro x hx1 y hy
          exact hx x (List.mem_cons_of_mem _ hx1) y (List.mem_cons_of_mem _ hy)
    · have hne : (path.set p (some d))[i]? = path[i]? := List.getElem?_set_ne (by omega)
      rw [verifyLoop, verifyLoop, hne]
      rw [verifyInputs, verifyInputs, hne] at hx
      by_cases hodd : idx % 2 ≠ 0
      · simp only [if_pos hodd] at hx ⊢
        apply ih (i + 1) _ _ (by omega) (by omega)
        intro x hx1 y hy
        exact hx x (List.mem_cons_of_mem _ hx1) y (List.mem_cons_of_mem _ hy)
      · simp only [if_neg hodd] at hx ⊢
        apply ih (i + 1) _ _ (by omega) (by omega)
        intro x hx1 y hy
        exact hx x (List.mem_cons_of_mem _ hx1) y (List.mem_cons_of_mem _ hy)

theorem siblingRead_pow (E : Env) (k L c i : Nat) (hi : i < L) (hc : c < 2 ^ L) :
    ∃ a, siblingRead (rowAt E k (2 ^ L) i) (c / 2 ^ i) = some a := by
  have hlen := rowAt_length_pow E k L i (by omega)
  have hl2 : 2 ^ (L - i) = 2 * 2 ^ (L - (i + 1)) := by
    have : L - i = (L - (i + 1)) + 1 := by omega
    rw [this, pow_succ]; ring
  have hidx : c / 2 ^ i < 2 ^ (L - i) := by
    rw [Nat.div_lt_iff_lt_mul (by positivity), ← pow_add]
    have : L - i + i = L := by omega
    rw [this]; exact hc
  have hpos : 0 < 2 ^ (L - (i + 1)) := by positivity
  unfold siblingRead
  split
  · exact ⟨_, List.getElem?_eq_getElem (by omega)⟩
  · exact ⟨_, List.getElem?_eq_getElem (by omega)⟩

theorem tamper_sigObjAfter (E : Env) (k L c : Nat) (msg : Val) (sig : List Val)
    (hc : c < 2 ^ L)
    (hv : lamport.verify E (lamport.generate E (k + 512 * c)).pubKey msg sig =
      Except.ok true)
    (p : Nat) (hp : p < L + 1) (d : Digest)
    (hd : (sigObjAfter E k (2 ^ L) c msg sig).path[p]? ≠ some (some d))
    (hx : CrossInjective E (walkInputs E (sigObjAfter E k (2 ^ L) c msg sig))
      (walkInputs E { sigObjAfter E k (2 ^ L) c msg sig with
        path := (sigObjAfter E k (2 ^ L) c msg sig).path.set p (some d) }))
    (t : MerkleKeyTree) :
    MerkleKeyTree.verify E t { sigObjAfter E k (2 ^ L) c msg sig with
      path := (sigObjAfter E k (2 ^ L) c msg sig).path.set p (some d) } =
      Except.ok false := by
  obtain ⟨root, _, hlast, hw⟩ := sigObjAfter_walk E k L c msg sig hc
  obtain ⟨hlen, hsib, _⟩ := sigObjAfter_pow_path E k L c msg sig
  obtain ⟨hid, hpk, hmsg, hsg⟩ := sigObjAfter_fields E k (2 ^ L) c msg sig
  generalize hpath : (sigObjAfter E k (2 ^ L) c msg sig).path = path at *
  unfold walkInputs at hx
  dsimp only at hx
  rw [hpath, hid, hpk, List.length_set, hlen, Nat.add_sub_cancel] at hx
  rw [verify_of_lamport_true E t _ (by dsimp only; rw [hpk, hmsg, hsg]; exact hv)]
  dsimp only
  rw [hid, hpk, List.length_set, hlen, Nat.add_sub_cancel]
  refine congrArg Except.ok ?_
  rw [decide_eq_false_iff_not]
  by_cases hpL : p = L
  · subst hpL
    rw [List.getElem?_set_self (by omega),
      ← verifyLoop_congr E path _ p 0 c _
        (fun j _ hj => (List.getElem?_set_ne (by omega)).symm), hw]
    simp only [Option.join, Option.some_bind, id, Option.some.injEq]
    intro hc2
    exact hd (by rw [hc2]; exact hlast)
  · have hpl : p < L := by omega
    obtain ⟨a, ha⟩ := siblingRead_pow E k L c p hpl hc
    have hpa : path[p]? = some (some a) := by rw [hsib p hpl, ha]
    have had : a ≠ d := by
      intro hc2
      rw [hpa, hc2] at hd
      exact hd rfl
    have := verifyLoop_tamper E path p a d hpa had L 0 c _ (by omega) (by omega) hx
    rw [hw] at this
    rw [List.getElem?_set_ne hpL, hlast]
    simp only [Option.join, Option.some_bind, id, Option.some.injEq]
    exact this

/-- C8: for a signature object returned by `sign` on a tree of size `2 ^ L`,
replacing one entry of its path (a sibling or the last entry) by a different
digest makes `verify` return false, provided the hash has no collision among
the texts that `verify` hashes while walking the original and the altered
path. The hash oracle returns 32 hexadecimal characters. -/
theorem C8_path_tamper_detected (E : Env) (hE : HexDigests E) (k L : Nat)
    (t : MerkleKeyTree) (ht : Reachable E k (2 ^ L) t) (msg : Val) (s : SigObj)
    (hs : (MerkleKeyTree.sign E t msg).1 = Except.ok s)
    (p : Nat) (hp : p < s.path.length) (d : Digest)
    (hd : s.path[p]? ≠ some (some d))
    (hnc : NoCollision E
      (walkInputs E s ++ walkInputs E { s with path := s.path.set p (some d) })) :
    MerkleKeyTree.verify E (MerkleKeyTree.sign E t msg).2
      { s with path := s.path.set p (some d) } = Except.ok false := by
  obtain ⟨c, hc, rfl⟩ := reachable_treeAfter E k (2 ^ L) t ht
  obtain ⟨hlt, sg, hsg, rfl, _⟩ := sign_treeAfter_inv E k (2 ^ L) c msg s hc hs
  rw [treeSize_pow] at hlt
  obtain ⟨sg1, h1, _, h3⟩ := generate_sign_ok E hE (k + 512 * c) msg
  rw [hsg] at h1
  rw [← Except.ok.inj h1] at h3
  rw [(sigObjAfter_pow_path E k L c msg sg).1] at hp
  exact tamper_sigObjAfter E k L c msg sg (by omega) h3 p hp d hd
    (fun a ha b hb => hnc a (List.mem_append_left _ ha) b (List.mem_append_right _ hb)) _

theorem toy_path_zero (k : Nat) (msg : Val) (sig : List Val) :
    (sigObjAfter toyEnv k (2 ^ 1) 0 msg sig).path[0]? = some (some (toyLeafDigest k)) := by
  rw [(sigObjAfter_pow_path toyEnv k 1 0 msg sig).2.1 0 (by decide), toy_rowAt_zero]
  rfl

theorem toy_walkInputs (k : Nat) (s : SigObj)
    (e : Option Digest) (hlen : s.path.length = 2) (h0 : s.path[0]? = some e)
    (hid : s.keyPairId = 0)
    (hpk : s.pubKey = (lamport.generate toyEnv k).pubKey) :
    walkInputs toyEnv s = [toyLeafDigest k ++ jsStr e] := by
  unfold walkInputs
  rw [hlen, hid, hpk, toy_leaf_digest]
  simp only [verifyInputs, h0, Option.join, Option.some_bind, id]
  rfl

theorem toySigObj_sign :
    (MerkleKeyTree.sign toyEnv (treeAfter toyEnv 0 (2 ^ 1) 0) (Val.string "hello")).1 =
      Except.ok toySigObj := by
  have h := sign_treeAfter toyEnv 0 (2 ^ 1) 0 (Val.string "hello") (by decide)
  rw [toySignature_eq'] at h
  rw [h]
  rfl

theorem toySigObj_length : toySigObj.path.length = 2 :=
  (sigObjAfter_pow_path toyEnv 0 1 0 (Val.string "hello")
    (toySignature (Val.string "hello"))).1

theorem toySigObj_path_zero : toySigObj.path[0]? = some (some (toyLeafDigest 0)) :=
  toy_path_zero 0 (Val.string "hello") (toySignature (Val.string "hello"))

theorem toySigObj_noCollision :
    NoCollision toyEnv
      (walkInputs toyEnv toySigObj ++
        walkInputs toyEnv { toySigObj with path := toySigObj.path.set 0 (some toySix) }) := by
  have hid : toySigObj.keyPairId = 0 := by
    simp only [toySigObj, sigObjAfter]
  have hpk : toySigObj.pubKey = (lamport.generate toyEnv 0).pubKey := by
    simp only [toySigObj, sigObjAfter, Nat.mul_zero, Nat.add_zero]
  have h1 : walkInputs toyEnv toySigObj = [toyLeafDigest 0 ++ jsStr (some (toyLeafDigest 0))] :=
    toy_walkInputs 0 toySigObj _ toySigObj_length toySigObj_path_zero hid hpk
  have h2 : walkInputs toyEnv { toySigObj with path := toySigObj.path.set 0 (some toySix) } =
      [toyLeafDigest 0 ++ jsStr (some toySix)] :=
    toy_walkInputs 0 { toySigObj with path := toySigObj.path.set 0 (some toySix) } _
      (by dsimp only; rw [List.length_set, toySigObj_length])
      (by dsimp only; rw [List.getElem?_set_self (by rw [toySigObj_length]; decide)])
      (by dsimp only; exact hid) (by dsimp only; exact hpk)
  rw [h1, h2]
  intro a ha b hb hab
  simp only [List.singleton_append, List.mem_cons, List.mem_singleton, List.not_mem_nil,
    or_false] at ha hb
  rcases ha with rfl | rfl <;> rcases hb with rfl | rfl
  · rfl
  · rw [toy_hash_string, toy_hash_string] at hab
    exact absurd hab (by decide)
  · rw [toy_hash_string, toy_hash_string] at hab
    exact absurd hab (by decide)
  · rfl

theorem C8_path_tamper_detected_witness :
    HexDigests toyEnv ∧ Reachable toyEnv 0 (2 ^ 1) (treeAfter toyEnv 0 (2 ^ 1) 0) ∧
      (MerkleKeyTree.sign toyEnv (treeAfter toyEnv 0 (2 ^ 1) 0) (Val.string "hello")).1 =
        Except.ok toySigObj ∧
      0 < toySigObj.path.length ∧
      toySigObj.path[0]? ≠ some (some toySix) ∧
      NoCollision toyEnv
        (walkInputs toyEnv toySigObj ++
          walkInputs toyEnv { toySigObj with path := toySigObj.path.set 0 (some toySix) }) ∧
      MerkleKeyTree.verify toyEnv
        (MerkleKeyTree.sign toyEnv (treeAfter toyEnv 0 (2 ^ 1) 0) (Val.string "hello")).2
        { toySigObj with path := toySigObj.path.set 0 (some toySix) } = Except.ok false :=
  have hr : Reachable toyEnv 0 (2 ^ 1) (treeAfter toyEnv 0 (2 ^ 1) 0) :=
    Reachable.new _ (new_eq toyEnv 0 (2 ^ 1))
  have hp : 0 < toySigObj.path.length := by
    rw [toySigObj_length]; decide
  have hd : toySigObj.path[0]? ≠ some (some toySix) := by
    rw [toySigObj_path_zero]; decide
  ⟨toyEnv_hex, hr, toySigObj_sign, hp, hd, toySigObj_noCollision,
    C8_path_tamper_detected toyEnv toyEnv_hex 0 1 _ hr (Val.string "hello") _ toySigObj_sign
      0 hp _ hd toySigObj_noCollision⟩

/-! ## The parent index -/

theorem ceil_succ_half (idx : Nat) : ⌈((idx : ℚ) + 1) / 2⌉₊ = idx / 2 + 1 := by
  have h := parentIdx_eq idx
  unfold parentIdx at h
  have hpos : 0 < ⌈((idx : ℚ) + 1) / 2⌉₊ := by
    rw [Nat.ceil_pos]
    positivity
  omega

/-- C19: for every non-negative integer `idx`, `parentIdx(idx)`, that is
`Math.ceil((idx + 1)/2) - 1` computed in the integers, equals
`floor(idx / 2)`; in particular `parentIdx(2k) = parentIdx(2k + 1) = k` and
`parentIdx(0) = 0`. -/
theorem C19_parentIdx_is_floor_half (idx : Nat) :
    ((parentIdx idx : ℕ) : ℤ) = ⌈((idx : ℚ) + 1) / 2⌉ - 1 ∧
      ⌈((idx : ℚ) + 1) / 2⌉ - 1 = ⌊(idx : ℚ) / 2⌋ ∧
      parentIdx idx = idx / 2 ∧
      parentIdx (2 * idx) = idx ∧ parentIdx (2 * idx + 1) = idx ∧ parentIdx 0 = 0 := by
  have hx : (0 : ℚ) ≤ ((idx : ℚ) + 1) / 2 := by positivity
  have hc : ⌈((idx : ℚ) + 1) / 2⌉ = ((idx / 2 + 1 : ℕ) : ℤ) := by
    rw [← ceil_succ_half idx, ← Int.ceil_toNat, Int.toNat_of_nonneg (Int.ceil_nonneg hx)]
  have hf : ⌊(idx : ℚ) / 2⌋ = ((idx / 2 : ℕ) : ℤ) := by
    have := Rat.floor_natCast_div_natCast idx 2
    simpa using this
  refine ⟨?_, ?_, parentIdx_eq idx, ?_, ?_, ?_⟩
  · rw [hc, parentIdx_eq]
    push_cast
    ring
  · rw [hc, hf]
    push_cast
    ring
  · rw [parentIdx_eq]; omega
  · rw [parentIdx_eq]; omega
  · rw [parentIdx_eq]

/-! ## The shape of key pairs, rows and paths -/

/-- C15: for every output of `lamport.generate` (for every outcome of the
random source), `privKey` and `pubKey` have exactly 256 pairs, each entry of
`pubKey` is the pair of the hashes of the two seeds at the same position of
`privKey`, and `used` is false. -/
theorem C15_key_pair_alignment (E : Env) (k : Nat) :
    (lamport.generate E k).privKey.length = 256 ∧
      (lamport.generate E k).pubKey.length = 256 ∧
      (∀ i : Fin 256, ∃ seed pub,
        (lamport.generate E k).privKey[i.val]? = some seed ∧
        (lamport.generate E k).pubKey[i.val]? = some pub ∧
        pub.1 = hash E seed.1 ∧ pub.2 = hash E seed.2) ∧
      (lamport.generate E k).used = false := by
  refine ⟨generate_privKey_length E k, generate_pubKey_length E k, ?_, generate_used E k⟩
  intro i
  have hp := generate_privKey_getElem? E k i.val i.isLt
  refine ⟨_, (hash E (random32Bytes E (k + 2 * i.val)),
    hash E (random32Bytes E (k + 2 * i.val + 1))), hp, ?_, rfl, rfl⟩
  have hal : (lamport.generate E k).pubKey =
      (lamport.generate E k).privKey.map fun p => (hash E p.1, hash E p.2) :=
    generate_aligned E k
  rw [hal, List.getElem?_map, hp]
  rfl

theorem ceil_half (n : Nat) : ⌈(n : ℚ) / 2⌉₊ = (n + 1) / 2 := by
  cases n with
  | zero => simp
  | succ m =>
    have h := ceil_succ_half m
    push_cast
    rw [h]
    omega

theorem halve_iterate_clog (n : Nat) (h1 : 1 ≤ n) : halve^[Nat.clog 2 n] n = 1 := by
  induction n using Nat.strong_induction_on with
  | _ n ih =>
    by_cases h2 : 2 ≤ n
    · have hclog := Nat.clog_of_two_le (b := 2) (by norm_num) h2
      have hh : (n + 2 - 1) / 2 = halve n := by
        unfold halve; congr 1
      rw [hclog, hh, Function.iterate_succ_apply]
      exact ih (halve n) (by unfold halve; omega) (by unfold halve; omega)
    · have : n = 1 := by omega
      subst this
      simp [Nat.clog]

theorem treeAfter_rows_length (E : Env) (k keyNum c : Nat) :
    (treeAfter E k keyNum c).rows.length = Nat.clog 2 (treeSize keyNum) + 1 := by
  simp only [treeAfter, buildRows_length]

theorem treeAfter_last_row (E : Env) (k keyNum c : Nat) :
    ∃ root, (treeAfter E k keyNum c).rows.getLast? = some [root] ∧
      (treeAfter E k keyNum c).rootHash = some root := by
  have hlen := treeAfter_rows_length E k keyNum c
  have hrow := treeAfter_rows_getElem? E k keyNum c (Nat.clog 2 (treeSize keyNum)) (le_refl _)
  have hl := iterate_nextRow_length E (firstRowOf E k (treeSize keyNum))
    (Nat.clog 2 (treeSize keyNum))
  rw [firstRowOf_length, halve_iterate_clog _ (treeSize_pos keyNum), List.length_eq_one] at hl
  obtain ⟨root, hroot⟩ := hl
  rw [hroot] at hrow
  refine ⟨root, ?_, ?_⟩
  · rw [List.getLast?_eq_getElem?, hlen, Nat.add_sub_cancel, hrow]
  · have hr : (treeAfter E k keyNum c).rootHash =
        ((treeAfter E k keyNum c).rows[(treeAfter E k keyNum c).rows.length - 1]?).bind
          fun row => row[0]? := rfl
    rw [hr, hlen, Nat.add_sub_cancel, hrow]
    rfl

/-- C11: for every tree constructed with a size of at least 1, power of two
or not, the first row has `size` entries, each further row has
`ceil(length / 2)` entries where `length` is that of the row below, and the
last row has exactly one entry, which is `rootHash`. -/
theorem C11_row_shape (E : Env) (k keyNum : Nat) (h1 : 1 ≤ keyNum) :
    ∃ t, MerkleKeyTree.new E k keyNum = Except.ok t ∧ t.size = keyNum ∧
      (∃ row0, t.rows[0]? = some row0 ∧ row0.length = keyNum) ∧
      (∀ m row above, t.rows[m]? = some row → t.rows[m + 1]? = some above →
        above.length = ⌈(row.length : ℚ) / 2⌉₊) ∧
      ∃ root, t.rows.getLast? = some [root] ∧ t.rootHash = some root := by
  have hsize : treeSize keyNum = keyNum := by
    unfold treeSize; rw [if_neg (by omega)]
  refine ⟨treeAfter E k keyNum 0, new_eq E k keyNum, hsize, ?_, ?_,
    treeAfter_last_row E k keyNum 0⟩
  · refine ⟨_, treeAfter_rows_getElem? E k keyNum 0 0 (Nat.zero_le _), ?_⟩
    rw [Function.iterate_zero, id, firstRowOf_length, hsize]
  · intro m row above hrow habove
    have hm : m + 1 < (treeAfter E k keyNum 0).rows.length := by
      by_contra hc
      rw [List.getElem?_eq_none_iff.2 (by omega)] at habove
      cases habove
    rw [treeAfter_rows_length] at hm
    rw [treeAfter_rows_getElem? E k keyNum 0 m (by omega)] at hrow
    rw [treeAfter_rows_getElem? E k keyNum 0 (m + 1) (by omega),
      Function.iterate_succ_apply'] at habove
    rw [← Option.some.inj habove, ← Option.some.inj hrow, nextRow_length, ceil_half]

theorem C11_row_shape_witness :
    1 ≤ 3 ∧
      ∃ t, MerkleKeyTree.new toyEnv 0 3 = Except.ok t ∧ t.size = 3 ∧
        (∃ row0, t.rows[0]? = some row0 ∧ row0.length = 3) ∧
        (∀ m row above, t.rows[m]? = some row → t.rows[m + 1]? = some above →
          above.length = ⌈(row.length : ℚ) / 2⌉₊) ∧
        ∃ root, t.rows.getLast? = some [root] ∧ t.rootHash = some root :=
  ⟨by decide, C11_row_shape toyEnv 0 3 (by decide)⟩

theorem sigObjAfter_path_shape (E : Env) (k keyNum c : Nat) (msg : Val) (sig : List Val) :
    (sigObjAfter E k keyNum c msg sig).path.length = (treeAfter E k keyNum c).rows.length ∧
      (sigObjAfter E k keyNum c msg sig).path.getLast? =
        some (treeAfter E k keyNum c).rootHash := by
  have hlen := treeAfter_rows_length E k keyNum c
  have hp : (sigObjAfter E k keyNum c msg sig).path =
      (rawPath (treeAfter E k keyNum c).rows (treeAfter E k keyNum c).rows.length 0 c).set
        ((treeAfter E k keyNum c).rows.length - 1) (treeAfter E k keyNum c).rootHash := by
    rw [sigObjAfter]
    rfl
  have hraw : (rawPath (treeAfter E k keyNum c).rows (treeAfter E k keyNum c).rows.length
      0 c).length = (treeAfter E k keyNum c).rows.length := by
    simp [rawPath]
  rw [hp]
  refine ⟨by rw [List.length_set, hraw], ?_⟩
  rw [List.getLast?_eq_getElem?, List.length_set, hraw,
    List.getElem?_set_self (by rw [hraw, hlen]; omega)]

/-- C12: every signature object returned by `sign`, in any state reached from
construction by calls of `sign`, has a path with one entry per row of the
tree (`rows.length`, which is `rowNum` and, for a size `2 ^ L`, is `L + 1`),
and the last entry of the path is the `rootHash` of the tree. -/
theorem C12_path_shape (E : Env) (k keyNum : Nat) (t : MerkleKeyTree)
    (ht : Reachable E k keyNum t) (msg : Val) (s : SigObj)
    (hs : (MerkleKeyTree.sign E t msg).1 = Except.ok s) :
    s.path.length = t.rows.length ∧ t.rows.length = t.rowNum ∧
      s.path.getLast? = some t.rootHash ∧
      ∀ L, t.size = 2 ^ L → s.path.length = L + 1 := by
  obtain ⟨c, hc, rfl⟩ := reachable_treeAfter E k keyNum t ht
  obtain ⟨_, sg, _, rfl, _⟩ := sign_treeAfter_inv E k keyNum c msg s hc hs
  obtain ⟨h1, h2⟩ := sigObjAfter_path_shape E k keyNum c msg sg
  refine ⟨h1, rfl, h2, ?_⟩
  intro L hL
  have hsize : (treeAfter E k keyNum c).size = treeSize keyNum := rfl
  rw [h1, treeAfter_rows_length, ← hsize, hL, Nat.clog_pow 2 L (by norm_num)]

theorem C12_path_shape_witness :
    Reachable toyEnv 0 (2 ^ 1) (treeAfter toyEnv 0 (2 ^ 1) 0) ∧
      (MerkleKeyTree.sign toyEnv (treeAfter toyEnv 0 (2 ^ 1) 0) (Val.string "hello")).1 =
        Except.ok toySigObj ∧
      toySigObj.path.length = (treeAfter toyEnv 0 (2 ^ 1) 0).rows.length ∧
      toySigObj.path.getLast? = some (treeAfter toyEnv 0 (2 ^ 1) 0).rootHash :=
  have hr : Reachable toyEnv 0 (2 ^ 1) (treeAfter toyEnv 0 (2 ^ 1) 0) :=
    Reachable.new _ (new_eq toyEnv 0 (2 ^ 1))
  ⟨hr, toySigObj_sign,
    (C12_path_shape toyEnv 0 (2 ^ 1) _ hr (Val.string "hello") toySigObj toySigObj_sign).1,
    (C12_path_shape toyEnv 0 (2 ^ 1) _ hr (Val.string "hello") toySigObj toySigObj_sign).2.2.1⟩

/-! ## The content of the authentication path -/

theorem xor_one_eq (j : Nat) : j ^^^ 1 = if j % 2 = 1 then j - 1 else j + 1 := by
  have h1 : (j ^^^ 1) / 2 = j / 2 := by
    rw [Nat.xor_div_two]
    simp
  have h2 : (j ^^^ 1) % 2 = (j + 1) % 2 := Nat.xor_mod_two_eq
  split <;> omega

theorem siblingRead_eq_xor (row : List Digest) (j : Nat) :
    siblingRead row j = row[j ^^^ 1]? := by
  unfold siblingRead
  rw [xor_one_eq]
  by_cases h : j % 2 = 1
  · rw [if_pos (by omega), if_pos h]
  · rw [if_neg (by omega), if_neg h]

/-- C18: for a tree of size `2 ^ L` and a successful `sign` that selects leaf
`i`, for every level `m < L` the entry `path[m]` is `rows[m][j xor 1]` with
`j = floor(i / 2 ^ m)` (the index `j - 1` when `j` is odd, `j + 1` when even),
and that index is within `rows[m]`; at the top level `L` the index `j xor 1`
is outside the one-entry row, the read gives `undefined`, and the slot holds
`rootHash` instead. -/
theorem C18_authentication_path_content (E : Env) (k L : Nat) (t : MerkleKeyTree)
    (ht : Reachable E k (2 ^ L) t) (msg : Val) (s : SigObj)
    (hs : (MerkleKeyTree.sign E t msg).1 = Except.ok s) :
    (∀ m, m < L → ∃ row d, t.rows[m]? = some row ∧
        (s.keyPairId / 2 ^ m) ^^^ 1 < row.length ∧
        row[(s.keyPairId / 2 ^ m) ^^^ 1]? = some d ∧
        s.path[m]? = some (some d) ∧
        (s.keyPairId / 2 ^ m) ^^^ 1 =
          if (s.keyPairId / 2 ^ m) % 2 = 1 then s.keyPairId / 2 ^ m - 1
          else s.keyPairId / 2 ^ m + 1) ∧
      ∃ top, t.rows[L]? = some top ∧ top.length = 1 ∧
        top.length ≤ (s.keyPairId / 2 ^ L) ^^^ 1 ∧
        siblingRead top (s.keyPairId / 2 ^ L) = none ∧
        s.path[L]? = some t.rootHash := by
  obtain ⟨c, hc, rfl⟩ := reachable_treeAfter E k (2 ^ L) t ht
  obtain ⟨hlt, sg, _, rfl, _⟩ := sign_treeAfter_inv E k (2 ^ L) c msg s hc hs
  rw [treeSize_pow] at hlt
  have hcL : c < 2 ^ L := by omega
  obtain ⟨_, hsib, hlast⟩ := sigObjAfter_pow_path E k L c msg sg
  have hid : (sigObjAfter E k (2 ^ L) c msg sg).keyPairId = c :=
    (sigObjAfter_fields E k (2 ^ L) c msg sg).1
  rw [hid]
  constructor
  · intro m hm
    obtain ⟨d, hd⟩ := siblingRead_pow E k L c m hm hcL
    rw [siblingRead_eq_xor] at hd
    refine ⟨_, d, treeAfter_pow_rows E k L c m (by omega), ?_, hd, ?_, xor_one_eq _⟩
    · by_contra hcon
      rw [List.getElem?_eq_none_iff.2 (by omega)] at hd
      cases hd
    · rw [hsib m hm, siblingRead_eq_xor, hd]
  · have hlen := rowAt_length_pow E k L L (le_refl L)
    rw [Nat.sub_self, pow_zero] at hlen
    have h0 : c / 2 ^ L = 0 := Nat.div_eq_of_lt hcL
    refine ⟨_, treeAfter_pow_rows E k L c L (le_refl L), hlen, ?_, ?_, ?_⟩
    · rw [hlen, h0]
      decide
    · rw [siblingRead_eq_xor, h0, List.getElem?_eq_none_iff, hlen]
      decide
    · rw [hlast, treeAfter_pow_rootHash]

theorem C18_authentication_path_content_witness :
    Reachable toyEnv 0 (2 ^ 1) (treeAfter toyEnv 0 (2 ^ 1) 0) ∧
      (MerkleKeyTree.sign toyEnv (treeAfter toyEnv 0 (2 ^ 1) 0) (Val.string "hello")).1 =
        Except.ok toySigObj ∧
      ∃ row d, (treeAfter toyEnv 0 (2 ^ 1) 0).rows[0]? = some row ∧
        (toySigObj.keyPairId / 2 ^ 0) ^^^ 1 < row.length ∧
        row[(toySigObj.keyPairId / 2 ^ 0) ^^^ 1]? = some d ∧
        toySigObj.path[0]? = some (some d) :=
  have hr : Reachable toyEnv 0 (2 ^ 1) (treeAfter toyEnv 0 (2 ^ 1) 0) :=
    Reachable.new _ (new_eq toyEnv 0 (2 ^ 1))
  have h := (C18_authentication_path_content toyEnv 0 1 _ hr (Val.string "hello") toySigObj
    toySigObj_sign).1 0 (by decide)
  ⟨hr, toySigObj_sign, h.elim fun row h1 => h1.elim fun d h2 =>
    ⟨row, d, h2.1, h2.2.1, h2.2.2.1, h2.2.2.2.1⟩⟩

/-! ## The frame of `sign` and `verify` -/

theorem firstUnused_some (l : List KeyPair) (i0 : Nat) (kp : KeyPair) (i : Nat)
    (h : firstUnused l i0 = some (kp, i)) :
    i0 ≤ i ∧ l[i - i0]? = some kp ∧ kp.used = false := by
  induction l generalizing i0 with
  | nil => cases h
  | cons leaf rest ih =>
    rw [firstUnused] at h
    by_cases hu : leaf.used = true
    · rw [hu] at h
      simp only [Bool.not_true, Bool.false_eq_true, if_false] at h
      obtain ⟨h1, h2, h3⟩ := ih (i0 + 1) h
      refine ⟨by omega, ?_, h3⟩
      have e : i - i0 = (i - (i0 + 1)) + 1 := by omega
      rw [e, List.getElem?_cons_succ]
      exact h2
    · have hu' : leaf.used = false := by simpa using hu
      rw [hu'] at h
      simp only [Bool.not_false, if_true, Option.some.injEq, Prod.mk.injEq] at h
      obtain ⟨rfl, rfl⟩ := h
      exact ⟨le_refl _, by simp, hu'⟩

theorem sign_ok_inv (E : Env) (t : MerkleKeyTree) (msg : Val) (s : SigObj)
    (hs : (MerkleKeyTree.sign E t msg).1 = Except.ok s) :
    ∃ kp, t._leaves[s.keyPairId]? = some kp ∧ kp.used = false ∧
      (MerkleKeyTree.sign E t msg).2 =
        { t with
          _leaves := t._leaves.set s.keyPairId { kp with used := true }
          usedKeyCount := t.usedKeyCount + 1 } := by
  unfold MerkleKeyTree.sign at hs ⊢
  by_cases hg : (t.usedKeyCount : Int) = (t.size : Int) - 1
  · rw [if_pos hg] at hs
    cases hs
  · rw [if_neg hg] at hs ⊢
    cases hf : firstUnused t._leaves 0 with
    | none =>
      rw [hf] at hs
      cases hs
    | some found =>
      obtain ⟨kp, i⟩ := found
      rw [hf] at hs
      dsimp only at hs ⊢
      cases hl : lamport.sign E kp.privKey msg with
      | error e =>
        rw [hl] at hs
        cases hs
      | ok signature =>
        rw [hl] at hs
        dsimp only at hs ⊢
        cases hp : pathLoop t.rows t.rowNum 0 i [] with
        | error e =>
          rw [hp] at hs
          cases hs
        | ok path =>
          rw [hp] at hs
          dsimp only at hs ⊢
          have hs' := Except.ok.inj hs
          subst hs'
          obtain ⟨_, h2, h3⟩ := firstUnused_some _ _ _ _ hf
          exact ⟨kp, by simpa using h2, h3, rfl⟩

/-- C14: a successful `sign`, in any tree state, increments `usedKeyCount` by
exactly 1 and sets the `used` flag of the selected leaf from false to true;
`size`, `rows`, `rootHash`, `rowNum`, the number of leaves, the `privKey` and
`pubKey` of every leaf and the `used` flag of every other leaf are unchanged;
a call of `verify` leaves the tree as it was. -/
theorem C14_frame_of_sign_and_verify (E : Env) (t : MerkleKeyTree) (msg : Val) (s : SigObj)
    (hs : (MerkleKeyTree.sign E t msg).1 = Except.ok s) :
    (MerkleKeyTree.sign E t msg).2.usedKeyCount = t.usedKeyCount + 1 ∧
      (MerkleKeyTree.sign E t msg).2.size = t.size ∧
      (MerkleKeyTree.sign E t msg).2.rows = t.rows ∧
      (MerkleKeyTree.sign E t msg).2.rootHash = t.rootHash ∧
      (MerkleKeyTree.sign E t msg).2.rowNum = t.rowNum ∧
      (MerkleKeyTree.sign E t msg).2._leaves.length = t._leaves.length ∧
      (∃ kp kp1, t._leaves[s.keyPairId]? = some kp ∧
        (MerkleKeyTree.sign E t msg).2._leaves[s.keyPairId]? = some kp1 ∧
        kp.used = false ∧ kp1.used = true) ∧
      (∀ j kp, t._leaves[j]? = some kp →
        ∃ kp1, (MerkleKeyTree.sign E t msg).2._leaves[j]? = some kp1 ∧
          kp1.privKey = kp.privKey ∧ kp1.pubKey = kp.pubKey ∧
          (j ≠ s.keyPairId → kp1.used = kp.used)) ∧
      ∀ (u : MerkleKeyTree) (sigObj : SigObj), (MerkleKeyTree.verifyStep E u sigObj).2 = u := by
  obtain ⟨kp, h1, h2, h3⟩ := sign_ok_inv E t msg s hs
  rw [h3]
  have hlt : s.keyPairId < t._leaves.length := by
    by_contra hc
    rw [List.getElem?_eq_none_iff.2 (by omega)] at h1
    cases h1
  refine ⟨rfl, rfl, rfl, rfl, rfl, by simp, ⟨kp, _, h1, List.getElem?_set_self hlt, h2, rfl⟩,
    ?_, fun _ _ => rfl⟩
  intro j kq hj
  dsimp only
  by_cases hjs : s.keyPairId = j
  · subst hjs
    rw [h1] at hj
    have := Option.some.inj hj
    subst this
    exact ⟨_, List.getElem?_set_self hlt, rfl, rfl, fun h => absurd rfl h⟩
  · rw [List.getElem?_set_ne hjs]
    exact ⟨kq, hj, rfl, rfl, fun _ => rfl⟩

theorem C14_frame_of_sign_and_verify_witness :
    (MerkleKeyTree.sign toyEnv (treeAfter toyEnv 0 (2 ^ 1) 0) (Val.string "hello")).1 =
        Except.ok toySigObj ∧
      (MerkleKeyTree.sign toyEnv (treeAfter toyEnv 0 (2 ^ 1) 0)
        (Val.string "hello")).2.usedKeyCount =
        (treeAfter toyEnv 0 (2 ^ 1) 0).usedKeyCount + 1 ∧
      (MerkleKeyTree.sign toyEnv (treeAfter toyEnv 0 (2 ^ 1) 0) (Val.string "hello")).2.rows =
        (treeAfter toyEnv 0 (2 ^ 1) 0).rows :=
  ⟨toySigObj_sign,
    (C14_frame_of_sign_and_verify toyEnv _ (Val.string "hello") toySigObj toySigObj_sign).1,
    (C14_frame_of_sign_and_verify toyEnv _ (Val.string "hello") toySigObj
      toySigObj_sign).2.2.1⟩

/-! ## The rows as a function of the public keys -/

theorem hash_congr (E F : Env) (hg : F.getHash = E.getHash) (hs : F.stringify = E.stringify)
    (v : Val) : hash F v = hash E v := by
  unfold hash
  rw [hg, hs]

theorem nextRow_congr (E F : Env) (hg : F.getHash = E.getHash)
    (hs : F.stringify = E.stringify) (row : List Digest) : nextRow F row = nextRow E row := by
  unfold nextRow
  apply List.map_congr_left
  intro j _
  exact hash_congr E F hg hs _

theorem buildRows_congr (E F : Env) (hg : F.getHash = E.getHash)
    (hs : F.stringify = E.stringify) (n : Nat) (row : List Digest) :
    buildRows F n row = buildRows E n row := by
  induction n generalizing row with
  | zero => rfl
  | succ n ih => rw [buildRows, buildRows, nextRow_congr E F hg hs, ih]

theorem rowsOfKeys_congr (E F : Env) (hg : F.getHash = E.getHash)
    (hs : F.stringify = E.stringify) (pubKeys : List (List (Digest × Digest))) :
    rowsOfKeys F pubKeys = rowsOfKeys E pubKeys := by
  unfold rowsOfKeys
  rw [buildRows_congr E F hg hs]
  congr 1
  apply List.map_congr_left
  intro pk _
  exact hash_congr E F hg hs _

theorem treeAfter_rows_of_keys (E : Env) (k keyNum c : Nat) :
    (treeAfter E k keyNum c).rows =
        rowsOfKeys E ((treeAfter E k keyNum c)._leaves.map fun kp => kp.pubKey) ∧
      (treeAfter E k keyNum c).rootHash = rootOfRows (treeAfter E k keyNum c).rows := by
  refine ⟨?_, rfl⟩
  simp only [treeAfter, rowsOfKeys, List.length_map, List.length_range, List.map_map, firstRowOf]
  refine congrArg _ (List.map_congr_left ?_)
  intro j _
  simp only [Function.comp_apply, leafAt]

/-- C13: the rows and the `rootHash` of a constructed tree are a function of
the ordered public keys of its leaves (and of the hash oracle); two
constructions, from any two outcomes of the random source, whose leaves have
the same public keys in the same order have the same rows and the same
`rootHash`. -/
theorem C13_root_determinism (E F : Env) (hg : F.getHash = E.getHash)
    (hs : F.stringify = E.stringify) (k k1 keyNum keyNum1 : Nat) (t t1 : MerkleKeyTree)
    (ht : MerkleKeyTree.new E k keyNum = Except.ok t)
    (ht1 : MerkleKeyTree.new F k1 keyNum1 = Except.ok t1) :
    t.rows = rowsOfKeys E (t._leaves.map fun kp => kp.pubKey) ∧
      t.rootHash = rootOfRows t.rows ∧
      ((t1._leaves.map fun kp => kp.pubKey) = (t._leaves.map fun kp => kp.pubKey) →
        t1.rows = t.rows ∧ t1.rootHash = t.rootHash) := by
  rw [new_eq] at ht ht1
  have e := Except.ok.inj ht
  have e1 := Except.ok.inj ht1
  subst e
  subst e1
  obtain ⟨h1, h2⟩ := treeAfter_rows_of_keys E k keyNum 0
  obtain ⟨h3, h4⟩ := treeAfter_rows_of_keys F k1 keyNum1 0
  refine ⟨h1, h2, ?_⟩
  intro hk
  have hrows : (treeAfter F k1 keyNum1 0).rows = (treeAfter E k keyNum 0).rows := by
    rw [h3, hk, rowsOfKeys_congr E F hg hs, ← h1]
  exact ⟨hrows, by rw [h4, hrows, ← h2]⟩

theorem generate_pubKey_eq (E : Env) (k : Nat) :
    (lamport.generate E k).pubKey =
      (List.range 256).map fun i =>
        (hash E (random32Bytes E (k + 2 * i)), hash E (random32Bytes E (k + 2 * i + 1))) := by
  have h : (lamport.generate E k).pubKey =
      (lamport.generate E k).privKey.map fun p => (hash E p.1, hash E p.2) :=
    generate_aligned E k
  rw [h, generate_eq]
  dsimp only
  rw [generateLoop_fst, List.map_map]
  rfl

theorem toy_pubKey_shift (k : Nat) :
    (lamport.generate toyEnv (k + 2)).pubKey = (lamport.generate toyEnv k).pubKey := by
  rw [generate_pubKey_eq, generate_pubKey_eq]
  apply List.map_congr_left
  intro i _
  rw [toy_hash_seed, toy_hash_seed, toy_hash_seed, toy_hash_seed]
  have h1 : (k + 2 + 2 * i) % 2 = (k + 2 * i) % 2 := by omega
  have h2 : (k + 2 + 2 * i + 1) % 2 = (k + 2 * i + 1) % 2 := by omega
  rw [h1, h2]

theorem toy_leaf_keys_shift (keyNum : Nat) :
    ((treeAfter toyEnv 2 keyNum 0)._leaves.map fun kp => kp.pubKey) =
      ((treeAfter toyEnv 0 keyNum 0)._leaves.map fun kp => kp.pubKey) := by
  simp only [treeAfter, List.map_map]
  apply List.map_congr_left
  intro j _
  simp only [Function.comp_apply, leafAt]
  have e : 2 + 512 * j = 0 + 512 * j + 2 := by omega
  rw [e, toy_pubKey_shift]

theorem C13_root_determinism_witness :
    toyEnv.getHash = toyEnv.getHash ∧ toyEnv.stringify = toyEnv.stringify ∧
      MerkleKeyTree.new toyEnv 0 4 = Except.ok (treeAfter toyEnv 0 4 0) ∧
      MerkleKeyTree.new toyEnv 2 4 = Except.ok (treeAfter toyEnv 2 4 0) ∧
      ((treeAfter toyEnv 2 4 0)._leaves.map fun kp => kp.pubKey) =
        ((treeAfter toyEnv 0 4 0)._leaves.map fun kp => kp.pubKey) ∧
      (treeAfter toyEnv 2 4 0).rows = (treeAfter toyEnv 0 4 0).rows ∧
      (treeAfter toyEnv 2 4 0).rootHash = (treeAfter toyEnv 0 4 0).rootHash :=
  ⟨rfl, rfl, new_eq toyEnv 0 4, new_eq toyEnv 2 4, toy_leaf_keys_shift 4,
    (C13_root_determinism toyEnv toyEnv rfl rfl 0 2 4 4 _ _ (new_eq toyEnv 0 4)
      (new_eq toyEnv 2 4)).2.2 (toy_leaf_keys_shift 4)⟩

/-! ## The selector bits -/

set_option maxRecDepth 100000 in
theorem char2Binary_ofNat_table : ∀ n < 256,
    char2Binary (Char.ofNat n) =
      (List.range 8).map fun j => if n / 2 ^ (7 - j) % 2 = 0 then '0' else '1' := by
  decide

theorem char2Binary_getElem? (c : Char) (h : c.toNat < 256) (r : Nat) (hr : r < 8) :
    (char2Binary c)[r]? = some (if c.toNat / 2 ^ (7 - r) % 2 = 0 then '0' else '1') := by
  have := char2Binary_ofNat_table c.toNat h
  rw [Char.ofNat_toNat] at this
  rw [this, List.getElem?_map, List.getElem?_range hr]
  rfl

theorem flatMap_char2Binary_getElem? (cs : List Char) (h : ∀ c ∈ cs, c.toNat < 256)
    (i : Nat) :
    (cs.flatMap char2Binary)[i]? = (cs[i / 8]?).bind fun c => (char2Binary c)[i % 8]? := by
  induction cs generalizing i with
  | nil => simp
  | cons c cs ih =>
    have hc := char2Binary_length c (h c (by simp))
    rw [List.flatMap_cons]
    by_cases hi : i < 8
    · rw [List.getElem?_append_left (by omega)]
      have h0 : i / 8 = 0 := by omega
      have h1 : i % 8 = i := by omega
      rw [h0, h1, List.getElem?_cons_zero, Option.some_bind]
    · rw [List.getElem?_append_right (by omega), hc, ih (fun d hd => h d (by simp [hd]))]
      have h0 : i / 8 = (i - 8) / 8 + 1 := by omega
      have h1 : (i - 8) % 8 = i % 8 := by omega
      rw [h0, h1, List.getElem?_cons_succ]

theorem lamport_sign_eq_of_digest (E : Env) (privKey : List (Val × Val)) (msg : Val)
    (hcodes : ∀ c ∈ (hash E msg).data, c.toNat < 256)
    (hlen : 8 * (hash E msg).length ≤ privKey.length) :
    lamport.sign E privKey msg =
      Except.ok ((digestBits (hash E msg)).enum.map fun y => signEntry privKey y.1 y.2) := by
  unfold lamport.sign
  simp only []
  rw [sign_foldlM, eachBit_eq _ hcodes]
  · simp [List.map_map, Function.comp_def]
  · intro p hp
    rw [eachBit_eq _ hcodes, List.mem_map] at hp
    obtain ⟨y, hy, rfl⟩ := hp
    have := List.fst_lt_of_mem_enum hy
    rw [digestBits, flatMap_char2Binary_length _ hcodes] at this
    have hl : (hash E msg).data.length = (hash E msg).length := rfl
    simp only
    omega

/-- C17: for every private key of 256 pairs and every message whose digest is
exactly 32 characters with codes below 256, `lamport.sign` returns exactly 256
entries, and entry `i` is `privKey[i][b]` where `b` is bit `7 - i mod 8`,
counted from the least significant, of the code of the digest character
`floor(i / 8)`. -/
theorem C17_lamport_selection (E : Env) (privKey : List (Val × Val))
    (hpriv : privKey.length = 256) (msg : Val) (hlen : (hash E msg).length = 32)
    (hcodes : ∀ c ∈ (hash E msg).data, c.toNat < 256) :
    ∃ sig, lamport.sign E privKey msg = Except.ok sig ∧ sig.length = 256 ∧
      ∀ i, i < 256 → ∃ c pair, (hash E msg).data[i / 8]? = some c ∧
        privKey[i]? = some pair ∧
        sig[i]? = some (if c.toNat / 2 ^ (7 - i % 8) % 2 = 0 then pair.1 else pair.2) := by
  have hdl : (hash E msg).data.length = 32 := hlen
  have hbl : (digestBits (hash E msg)).length = 256 := by
    rw [digestBits, flatMap_char2Binary_length _ hcodes, hdl]
  refine ⟨_, lamport_sign_eq_of_digest E privKey msg hcodes (by rw [hlen, hpriv]), ?_, ?_⟩
  · rw [List.length_map, List.enum_length, hbl]
  · intro i hi
    have hc : i / 8 < (hash E msg).data.length := by omega
    have hp : i < privKey.length := by omega
    refine ⟨(hash E msg).data[i / 8], privKey[i], List.getElem?_eq_getElem hc,
      List.getElem?_eq_getElem hp, ?_⟩
    have hbit : (digestBits (hash E msg))[i]? =
        some (if (hash E msg).data[i / 8].toNat / 2 ^ (7 - i % 8) % 2 = 0 then '0' else '1') := by
      rw [digestBits, flatMap_char2Binary_getElem? _ hcodes, List.getElem?_eq_getElem hc,
        Option.some_bind,
        char2Binary_getElem? _ (hcodes _ (List.getElem_mem hc)) _ (Nat.mod_lt _ (by norm_num))]
    rw [enum_map_getElem?, hbit, Option.map_some']
    simp only [signEntry, List.getElem?_eq_getElem hp, Option.some_bind]
    split <;> simp [pairAt, orUndefined]

theorem toy_hash_codes (v : Val) : ∀ c ∈ (hash toyEnv v).data, c.toNat < 256 :=
  toyEnv_hex.lt v

theorem C17_lamport_selection_witness :
    (lamport.generate toyEnv 0).privKey.length = 256 ∧
      (hash toyEnv (Val.string "hello")).length = 32 ∧
      (∀ c ∈ (hash toyEnv (Val.string "hello")).data, c.toNat < 256) ∧
      ∃ sig, lamport.sign toyEnv (lamport.generate toyEnv 0).privKey (Val.string "hello") =
          Except.ok sig ∧ sig.length = 256 :=
  have h := C17_lamport_selection toyEnv (lamport.generate toyEnv 0).privKey
    (generate_privKey_length toyEnv 0) (Val.string "hello")
    (toyEnv_hex (Val.string "hello")).1 (toy_hash_codes (Val.string "hello"))
  ⟨generate_privKey_length toyEnv 0, (toyEnv_hex (Val.string "hello")).1,
    toy_hash_codes (Val.string "hello"), h.elim fun sig hs => ⟨sig, hs.1, hs.2.1⟩⟩

/-! ## Verification of well-formed input -/

/-- C16: for every signature object with a `pubKey` of 256 pairs of digests
and a `signature` of 256 entries (any `keyPairId`, any `path`), both
`lamport.verify` and `verify` return a boolean and raise nothing; every read
of `signature`, of `pubKey` and of a pair is in range, as is every read of the
path by the loop, and the read of the last path entry when the path is not
empty. The hash oracle returns 32 hexadecimal characters. -/
theorem C16_verification_total (E : Env) (hE : HexDigests E) (t : MerkleKeyTree)
    (s : SigObj) (hpk : s.pubKey.length = 256) (hsig : s.signature.length = 256) :
    (∃ b, lamport.verify E s.pubKey s.message s.signature = Except.ok b) ∧
      (∃ b, MerkleKeyTree.verify E t s = Except.ok b) ∧
      (∀ p ∈ eachBit (hash E s.message), ∃ v pair d,
        s.signature[p.2]? = some v ∧ s.pubKey[p.2]? = some pair ∧
        pairAt pair p.1 = some d) ∧
      (∀ i, i < s.path.length - 1 → ∃ e, s.path[i]? = some e) ∧
      (s.path ≠ [] → ∃ e, s.path[s.path.length - 1]? = some e) := by
  have hl := lamport_verify_eq E hE s.pubKey (by omega) s.message s.signature
  refine ⟨⟨_, hl⟩, ?_, ?_, ?_, ?_⟩
  · cases hb : (digestBits (hash E s.message)).enum.all fun y =>
        verifyCheck E s.pubKey s.signature y.1 y.2 with
    | true =>
      rw [hb] at hl
      exact ⟨_, verify_of_lamport_true E t s hl⟩
    | false =>
      rw [hb] at hl
      exact ⟨_, verify_of_lamport_false E t s hl⟩
  · intro p hp
    rw [eachBit_eq _ (hE.lt s.message), List.mem_map] at hp
    obtain ⟨y, hy, rfl⟩ := hp
    have hlt := List.fst_lt_of_mem_enum hy
    rw [hE.bits_length] at hlt
    have hbit := hE.bits_binary s.message y.2
      (List.getElem?_mem ((mem_enum_iff _ y).1 hy))
    have h1 : y.1 < s.signature.length := by omega
    have h2 : y.1 < s.pubKey.length := by omega
    rcases hbit with hb | hb
    · exact ⟨_, _, s.pubKey[y.1].1, List.getElem?_eq_getElem h1,
        List.getElem?_eq_getElem h2, by simp only [hb]; rfl⟩
    · exact ⟨_, _, s.pubKey[y.1].2, List.getElem?_eq_getElem h1,
        List.getElem?_eq_getElem h2, by simp only [hb]; rfl⟩
  · intro i hi
    exact ⟨_, List.getElem?_eq_getElem (by omega)⟩
  · intro hne
    have : 0 < s.path.length := List.length_pos.2 hne
    exact ⟨_, List.getElem?_eq_getElem (by omega)⟩

theorem toySignature_length (msg : Val) : (toySignature msg).length = 256 := by
  rw [toySignature, List.length_map, List.enum_length, toyEnv_hex.bits_length]

theorem C16_verification_total_witness :
    HexDigests toyEnv ∧ toySigObj.pubKey.length = 256 ∧ toySigObj.signature.length = 256 ∧
      (∃ b, lamport.verify toyEnv toySigObj.pubKey toySigObj.message toySigObj.signature =
        Except.ok b) ∧
      ∃ b, MerkleKeyTree.verify toyEnv (treeAfter toyEnv 0 (2 ^ 1) 0) toySigObj =
        Except.ok b :=
  have hf := sigObjAfter_fields toyEnv 0 (2 ^ 1) 0 (Val.string "hello")
    (toySignature (Val.string "hello"))
  have hpk : toySigObj.pubKey.length = 256 := by
    rw [toySigObj, hf.2.1, generate_pubKey_length]
  have hsig : toySigObj.signature.length = 256 := by
    rw [toySigObj, hf.2.2.2, toySignature_length]
  ⟨toyEnv_hex, hpk, hsig,
    (C16_verification_total toyEnv toyEnv_hex (treeAfter toyEnv 0 (2 ^ 1) 0) toySigObj
      hpk hsig).1,
    (C16_verification_total toyEnv toyEnv_hex (treeAfter toyEnv 0 (2 ^ 1) 0) toySigObj
      hpk hsig).2.1⟩

/-! ## The selector bits of a hexadecimal digest -/

theorem hex_char_bits (c : Char) (h : isHexChar c = true) :
    (char2Binary c)[0]? = some '0' ∧ (char2Binary c)[2]? = some '1' ∧
      (((char2Binary c)[1]? = some '0' ∧ (char2Binary c)[3]? = some '1') ∨
        ((char2Binary c)[1]? = some '1' ∧ (char2Binary c)[3]? = some '0')) ∧
      Nat.digitChar (hexValue c).val = c := by
  simp only [isHexChar, List.contains, List.elem_eq_mem, decide_eq_true_eq] at h
  simp only [List.mem_cons, List.mem_singleton] at h
  rcases h with h | h | h | h | h | h | h | h | h | h | h | h | h | h | h | h | h
  all_goals first | (subst h; decide) | simp at h

theorem digest_char (E : Env) (hE : HexDigests E) (msg : Val) (k : Nat) (hk : k < 32) :
    ∃ c, isHexChar c = true ∧ ∀ r, r < 8 →
      (digestBits (hash E msg))[8 * k + r]? = (char2Binary c)[r]? ∧
      (eachBit (hash E msg))[8 * k + r]? =
        ((char2Binary c)[r]?).map fun b => (b, 8 * k + r) := by
  have hlen : (hash E msg).data.length = 32 := (hE msg).1
  have hkl : k < (hash E msg).data.length := by omega
  have hmem := List.getElem_mem hkl
  refine ⟨_, (hE msg).2 _ hmem, ?_⟩
  intro r hr
  have hbits : (digestBits (hash E msg))[8 * k + r]? =
      (char2Binary (hash E msg).data[k])[r]? := by
    have h1 : (8 * k + r) / 8 = k := by omega
    have h2 : (8 * k + r) % 8 = r := by omega
    rw [digestBits, flatMap_char2Binary_getElem? _ (hE.lt msg), h1, h2,
      List.getElem?_eq_getElem hkl, Option.some_bind]
  refine ⟨hbits, ?_⟩
  rw [eachBit_eq _ (hE.lt msg), enum_map_getElem?, hbits]

theorem selectorBits_eq (d : Digest) (h : ∀ c ∈ d.data, c.toNat < 256) :
    selectorBits d = digestBits d := by
  rw [selectorBits, eachBit_eq d h, List.map_map]
  exact List.enum_map_snd _

theorem digestOfDigits_surj (d : Digest) (hlen : d.length = 32)
    (hhex : ∀ c ∈ d.data, isHexChar c = true) :
    ∃ f : Fin 32 → Fin 16, digestOfDigits f = d := by
  have hdl : d.data.length = 32 := hlen
  refine ⟨fun i => hexValue (d.data.getD i.val '0'), ?_⟩
  apply String.ext
  apply List.ext_getElem
  · simp [digestOfDigits, hdl]
  · intro i h1 h2
    simp only [digestOfDigits, List.getElem_ofFn]
    have hg : d.data.getD i '0' = d.data[i] := by
      rw [List.getD_eq_getElem?_getD, List.getElem?_eq_getElem h2, Option.getD_some]
    rw [hg]
    exact (hex_char_bits _ (hhex _ (List.getElem_mem h2))).2.2.2

theorem selector_sequences_bounded (E : Env) (hE : HexDigests E) :
    ∃ S : Finset (List Char), S.card ≤ 16 ^ 32 ∧ ∀ m : Val, selectorBits (hash E m) ∈ S := by
  refine ⟨Finset.univ.image fun f : Fin 32 → Fin 16 => selectorBits (digestOfDigits f),
    ?_, ?_⟩
  · refine le_trans Finset.card_image_le ?_
    rw [Finset.card_univ, Fintype.card_fun, Fintype.card_fin, Fintype.card_fin]
  · intro m
    have hsurj := digestOfDigits_surj (hash E m) (hE m).1 (hE m).2
    rw [Finset.mem_image]
    exact hsurj.elim fun f hf =>
      ⟨f, by simp only [Finset.mem_univ], congrArg selectorBits hf⟩

/-- C20: when `hash` returns 32 lower-case hexadecimal characters, for every
message and every `k` in `0 .. 31` the selector bit at position `8k` is `0`,
the bit at `8k + 2` is `1`, and the bits at `8k + 1` and `8k + 3` are
complementary; hence for every private key of 256 pairs `lamport.sign` returns
`privKey[8k][0]` at position `8k` and `privKey[8k + 2][1]` at position
`8k + 2`, and all selector sequences lie in a set of at most `16 ^ 32`
elements. -/
theorem C20_fixed_selector_bits (E : Env) (hE : HexDigests E) (msg : Val) :
    (∀ k : Fin 32, ∃ b1 b3,
        (eachBit (hash E msg))[8 * k.val]? = some ('0', 8 * k.val) ∧
        (eachBit (hash E msg))[8 * k.val + 1]? = some (b1, 8 * k.val + 1) ∧
        (eachBit (hash E msg))[8 * k.val + 2]? = some ('1', 8 * k.val + 2) ∧
        (eachBit (hash E msg))[8 * k.val + 3]? = some (b3, 8 * k.val + 3) ∧
        ((b1 = '0' ∧ b3 = '1') ∨ (b1 = '1' ∧ b3 = '0'))) ∧
      (∀ privKey : List (Val × Val), privKey.length = 256 →
        ∃ sig, lamport.sign E privKey msg = Except.ok sig ∧
          ∀ k : Fin 32, sig[8 * k.val]? = (privKey[8 * k.val]?).map Prod.fst ∧
            sig[8 * k.val + 2]? = (privKey[8 * k.val + 2]?).map Prod.snd) ∧
      ∃ S : Finset (List Char), S.card ≤ 16 ^ 32 ∧ ∀ m : Val, selectorBits (hash E m) ∈ S := by
  refine ⟨?_, ?_, ?_⟩
  · intro k
    obtain ⟨c, hc, hall⟩ := digest_char E hE msg k.val k.isLt
    obtain ⟨h0, h2, h13, _⟩ := hex_char_bits c hc
    have e0 := (hall 0 (by norm_num)).2
    have e1 := (hall 1 (by norm_num)).2
    have e2 := (hall 2 (by norm_num)).2
    have e3 := (hall 3 (by norm_num)).2
    rw [h0] at e0
    rw [h2] at e2
    rw [Nat.add_zero] at e0
    rcases h13 with ⟨h1, h3⟩ | ⟨h1, h3⟩
    · rw [h1] at e1
      rw [h3] at e3
      exact ⟨'0', '1', e0, e1, e2, e3, Or.inl ⟨rfl, rfl⟩⟩
    · rw [h1] at e1
      rw [h3] at e3
      exact ⟨'1', '0', e0, e1, e2, e3, Or.inr ⟨rfl, rfl⟩⟩
  · intro privKey hpriv
    refine ⟨_, lamport_sign_eq E hE privKey (by omega) msg, ?_⟩
    intro k
    obtain ⟨c, hc, hall⟩ := digest_char E hE msg k.val k.isLt
    obtain ⟨h0, h2, _, _⟩ := hex_char_bits c hc
    have e0 := (hall 0 (by norm_num)).1
    have e2 := (hall 2 (by norm_num)).1
    rw [h0, Nat.add_zero] at e0
    rw [h2] at e2
    have hk := k.isLt
    have hp0 : 8 * k.val < privKey.length := by omega
    have hp2 : 8 * k.val + 2 < privKey.length := by omega
    constructor
    · rw [enum_map_getElem?, e0, List.getElem?_eq_getElem hp0]
      simp [signEntry, List.getElem?_eq_getElem hp0, pairAt, orUndefined]
    · rw [enum_map_getElem?, e2, List.getElem?_eq_getElem hp2]
      simp [signEntry, List.getElem?_eq_getElem hp2, pairAt, orUndefined]
  · exact selector_sequences_bounded E hE

theorem C20_fixed_selector_bits_witness :
    HexDigests toyEnv ∧
      (∃ b1 b3,
        (eachBit (hash toyEnv (Val.string "hello")))[8 * 0]? = some ('0', 8 * 0) ∧
        (eachBit (hash toyEnv (Val.string "hello")))[8 * 0 + 1]? = some (b1, 8 * 0 + 1) ∧
        (eachBit (hash toyEnv (Val.string "hello")))[8 * 0 + 2]? = some ('1', 8 * 0 + 2) ∧
        (eachBit (hash toyEnv (Val.string "hello")))[8 * 0 + 3]? = some (b3, 8 * 0 + 3) ∧
        ((b1 = '0' ∧ b3 = '1') ∨ (b1 = '1' ∧ b3 = '0'))) ∧
      ∃ S : Finset (List Char), S.card ≤ 16 ^ 32 ∧
        ∀ m : Val, selectorBits (hash toyEnv m) ∈ S :=
  ⟨toyEnv_hex,
    (C20_fixed_selector_bits toyEnv toyEnv_hex (Val.string "hello")).1 (0 : Fin 32),
    (C20_fixed_selector_bits toyEnv toyEnv_hex (Val.string "hello")).2.2⟩

end LamportMerkle
